import Mathlib

/-!
# LARM sampling (`src/sampling.c`): sample lifecycle and hierarchical reduction

A shallow embedding of the roofline sampler.  C objects are modelled as
follows.

* `uint64_t` values are natural numbers below `2^64`; every operation of the
  source on them is reduced modulo `2^64` explicitly.
* `long` / `long long` values are integers in `[-2^63, 2^63)`; the conversion
  of a `uint64_t` to `long` is the two's complement one (`to_long`).
* `int` values are integers in `[-2^31, 2^31)`; `int` additions wrap
  (`wrap_int`), which is what `__sync_fetch_and_add` does.
* a `struct roofline_sample *` is the index of the sample in the owning list
  `samples` (the list stores one pointer per PU, in logical index order), and
  `NULL` is `none`.
* a `hwloc_obj_t` is identified by the depth and the logical index of the
  object.
-/

namespace Sampling

/-! ## Machine arithmetic -/

/-- Conversion of an integer value to `uint64_t`. -/
def to_u64 (x : Int) : Nat := (x % 18446744073709551616).toNat

/-- Conversion of a `uint64_t` value to `long` (two's complement). -/
def to_long (x : Nat) : Int :=
  if x % 18446744073709551616 < 9223372036854775808 then
    ((x % 18446744073709551616 : Nat) : Int)
  else ((x % 18446744073709551616 : Nat) : Int) - 18446744073709551616

/-- The `uint64_t` subtraction `a - b`. -/
def sub_u64 (a b : Nat) : Nat := to_u64 ((a : Int) - (b : Int))

/-- The `uint64_t` addition `a + b`. -/
def add_u64 (a b : Nat) : Nat := (a + b) % 18446744073709551616

/-- The `uint64_t` multiplication `a * b`. -/
def mul_u64 (a b : Nat) : Nat := (a * b) % 18446744073709551616

/-- Reduction of an integer to the range of `int`. -/
def wrap_int (x : Int) : Int := (x + 2147483648) % 4294967296 - 2147483648

/-! ## Data model -/

/-- A `hwloc_obj_t`: an object of the topology, named by its depth and its
logical index at that depth. -/
structure hwloc_obj_ref where
  depth : Nat
  logical_index : Nat
deriving DecidableEq, Repr

/-- The `struct roofline_sample`.  The PAPI members `eventset` and `values` are
not stored: the event set is a constant handle, and `values` is a buffer that
`PAPI_stop` fills immediately before its only reads, so the raw counts are an
argument of the finalize step. -/
structure roofline_sample where
  last_thread : Int
  s_nano : Nat
  e_nano : Nat
  flops : Nat
  bytes : Nat
  location : Option hwloc_obj_ref
  n_threads : Int
deriving DecidableEq, Repr

/-- One line written by `roofline_sample_print`: location, `e_nano - s_nano`,
bytes, flops, number of threads and the info string (the type column is the
constant `APP`). -/
structure record where
  location : Option hwloc_obj_ref
  nanoseconds : Nat
  bytes : Nat
  flops : Nat
  n_threads : Int
  info : String
deriving DecidableEq, Repr

/-! ## The list container (`list.h`) -/

/-- Modelled from the spec: `list.h` is not part of the sources.  `reduce(range,
seed, combine)` folds left to right over the range, calling
`combine(accumulator, element)`. -/
def list_reduce {α β : Type} (l : List α) (seed : β) (combine : β → α → β) : β :=
  List.foldl combine seed l

/-- Modelled from the spec: `list.h` is not part of the sources.
`sub_range(seq, start, count)` is a view of the `count` elements that start at
index `start`, sharing the storage of `seq`. -/
def sub_list {α : Type} (l : List α) (start count : Nat) : List α :=
  (l.drop start).take count

/-- Modelled from the spec: `list.h` is not part of the sources.
`apply(seq, function)` runs `function` on every element. -/
def list_apply {α : Type} (l : List α) (f : α → α) : List α := l.map f

/-- Modelled from the spec: `list.h` is not part of the sources.  `get(seq,
index)` is the element at `index`; an index outside the sequence has no
defined result. -/
def list_get {α : Type} (l : List α) (i : Nat) : Option α := l[i]?

/-! ## Samples -/

/-- The function `roofline_sample_reset` (the PAPI counters it also resets are
not part of the sample record). -/
def roofline_sample_reset (s : roofline_sample) : roofline_sample :=
  { s with s_nano := 0, e_nano := 0, flops := 0, bytes := 0, n_threads := 0 }

/-- The function `roofline_sample_accumulate`: `out` after the call. -/
def roofline_sample_accumulate (out w : roofline_sample) : roofline_sample :=
  let out_time : Int := to_long (sub_u64 out.e_nano out.s_nano)
  let with_time : Int := to_long (sub_u64 w.e_nano w.s_nano)
  { out with
    s_nano := if out_time > with_time then out.s_nano else w.s_nano
    e_nano := if out_time > with_time then out.e_nano else w.e_nano
    bytes := add_u64 out.bytes w.bytes
    flops := add_u64 out.flops w.flops
    n_threads := wrap_int (out.n_threads + w.n_threads) }

/-- The sample of `new_roofline_sample` once `roofline_sampling_init` has set
its location. -/
def new_roofline_sample (location : Option hwloc_obj_ref) : roofline_sample :=
  { last_thread := 0, s_nano := 0, e_nano := 0, flops := 0, bytes := 0,
    location := location, n_threads := 0 }

/-- The function `roofline_sample_print`: the line it writes. -/
def roofline_sample_print (s : roofline_sample) (info : String) : record :=
  { location := s.location, nanoseconds := sub_u64 s.e_nano s.s_nano,
    bytes := s.bytes, flops := s.flops, n_threads := s.n_threads, info := info }

/-- The local sample `s` of `roofline_samples_reduce` before the fold.  The
member `last_thread` is left uninitialised by the source and is never read; it
is `0` here. -/
def reduce_seed (location : Option hwloc_obj_ref) : roofline_sample :=
  { last_thread := 0, s_nano := 0, e_nano := 0, flops := 0, bytes := 0,
    location := location, n_threads := 0 }

/-- The local sample `s` of `roofline_samples_reduce` after `list_reduce`. -/
def reduced_sample (l : List roofline_sample) (location : Option hwloc_obj_ref) :
    roofline_sample :=
  list_reduce l (reduce_seed location) roofline_sample_accumulate

/-- The function `roofline_samples_reduce`: the line it prints. -/
def roofline_samples_reduce (l : List roofline_sample) (location : Option hwloc_obj_ref)
    (info : String) : record :=
  roofline_sample_print (reduced_sample l location) info

/-- The duration of a sample as `roofline_sample_accumulate` reads it. -/
def sample_time (s : roofline_sample) : Int := to_long (sub_u64 s.e_nano s.s_nano)

/-- The measured members of a sample. -/
def measured (s : roofline_sample) : Nat × Nat × Nat × Nat × Int :=
  (s.s_nano, s.e_nano, s.bytes, s.flops, s.n_threads)

/-- A sample whose end is not before its start and that lasts less than `2^63`
nanoseconds. -/
def forward (x : roofline_sample) : Prop :=
  x.s_nano ≤ x.e_nano ∧ x.e_nano - x.s_nano < 9223372036854775808

/-- The two time stamps of a sample. -/
def stamps (x : roofline_sample) : Nat × Nat := (x.s_nano, x.e_nano)

/-! ## The topology (hwloc)

hwloc is an external library.  Its topology is a tree whose levels are
homogeneous: the root (the machine) is at depth `0`, every PU is at the last
depth, and the children of an object of depth `d` are at depth `d + 1`.  An
object is therefore modelled by its height above the PU level. -/

/-- A PU object: its logical index and its OS index. -/
structure hwloc_pu where
  logical_index : Nat
  os_index : Nat
deriving DecidableEq, Repr

/-- An object that stands `h` levels above the PUs: a PU when `h = 0`, and the
list of its children otherwise. -/
def hwloc_obj : Nat → Type
  | 0 => hwloc_pu
  | h + 1 => List (hwloc_obj h)

/-- The PUs below an object, from left to right. -/
def pus_below : (h : Nat) → hwloc_obj h → List hwloc_pu
  | 0, pu => [pu]
  | h + 1, children => List.flatMap children (pus_below h)

/-- The member `arity` of an object: its number of children. -/
def arity : (h : Nat) → hwloc_obj h → Nat
  | 0, _ => 0
  | _ + 1, children => List.length children

/-- The member `cpuset` of an object: the OS indexes of the PUs below it. -/
def cpuset (h : Nat) (o : hwloc_obj h) : List Nat :=
  (pus_below h o).map (fun pu => pu.os_index)

/-- The loop `first_PU = obj; while(first_PU->type != HWLOC_OBJ_PU) first_PU =
first_PU->first_child;` of `roofline_sampling_init`.  It has no result when it
reaches an object without children that is not a PU (the source dereferences a
null `first_child`). -/
def first_PU : (h : Nat) → hwloc_obj h → Option hwloc_pu
  | 0, pu => some pu
  | h + 1, children =>
    match (children : List (hwloc_obj h)) with
    | [] => none
    | c :: _ => first_PU h c

/-- The objects that `hwloc_get_next_obj_by_depth` enumerates at a depth, each
with its height, from left to right. -/
def objs_at_depth : (h : Nat) → hwloc_obj h → Nat → List (Σ k, hwloc_obj k)
  | h, o, 0 => [⟨h, o⟩]
  | 0, _, _ + 1 => []
  | h + 1, children, d + 1 => List.flatMap children (fun c => objs_at_depth h c d)

/-- The function `hwloc_get_nbobjs_inside_cpuset_by_type` for the type PU: the
number of PUs of the topology whose OS index is in the set. -/
def hwloc_get_nbobjs_inside_cpuset_by_type (pus : List hwloc_pu) (set : List Nat) : Nat :=
  pus.countP (fun pu => decide (pu.os_index ∈ set))

/-- The function `hwloc_get_pu_obj_by_os_index`: the PU with the given OS
index, if there is one. -/
def hwloc_get_pu_obj_by_os_index (pus : List hwloc_pu) (cpu : Nat) : Option hwloc_pu :=
  pus.find? (fun pu => decide (pu.os_index = cpu))

/-! ## The state of the sampler -/

/-- A node at the reduction depth as the sampler uses it: the object, its arity
and its `userdata`, the sub-list `sub_list(samples, start, count)` that
`roofline_sampling_init` stores there.  The `userdata` of a node of arity `0`
is never set nor read; it is `(0, 0)` here. -/
structure reduction_node where
  obj : hwloc_obj_ref
  arity : Nat
  userdata : Nat × Nat
deriving DecidableEq, Repr

/-- The file-scope variables of `sampling.c`.  `papi` tells whether the file is
built with `_PAPI_`; `pus` and `nodes` are what the code reads of `topology`:
the PUs in logical order and the nodes at `reduction_depth`. -/
structure sampler where
  papi : Bool
  FLOPS : Nat
  pus : List hwloc_pu
  nodes : List reduction_node
  samples : List roofline_sample
  bindings : List Nat
  output : List record
deriving DecidableEq, Repr

/-- What the operating system answers when a thread asks where it runs:
`cpubind` is the bitmap that `hwloc_get_cpubind` fills, as the list of its OS
indexes in increasing order, or `none` when the call returns `-1`; `sched_cpu`
is the value of `sched_getcpu()`, or `none` when it is `-1`. -/
structure os_answer where
  cpubind : Option (List Nat)
  sched_cpu : Option Nat
deriving DecidableEq, Repr

/-- The four raw counts `values[0..3]` that `PAPI_stop` writes. -/
structure papi_values where
  v0 : Int
  v1 : Int
  v2 : Int
  v3 : Int
deriving DecidableEq, Repr

/-- A thread of an OpenMP team: its `omp_get_thread_num()`, what the operating
system answers to it, the clock values it reads in start and in stop, and the
raw counts that `PAPI_stop` gives it. -/
structure omp_thread where
  thread_num : Nat
  os : os_answer
  start_clock : Nat
  stop_clock : Nat
  values : papi_values
deriving DecidableEq, Repr

/-! ## Resolution of the calling thread -/

/-- The assignment `*p = f(*p)` through the sample pointer `p = i`. -/
def update_sample (f : roofline_sample → roofline_sample) :
    List roofline_sample → Nat → List roofline_sample
  | [], _ => []
  | x :: xs, 0 => f x :: xs
  | x :: xs, i + 1 => x :: update_sample f xs i

/-- The variable `cpu` of `roofline_sampling_caller` after the binding query
and, when that gives no single PU, `sched_getcpu()`; `none` is `-1`. -/
def resolved_cpu (os : os_answer) : Option Nat :=
  match os.cpubind with
  | none => os.sched_cpu
  | some binding => if binding.length = 1 then binding.head? else os.sched_cpu

/-- The function `roofline_sampling_caller`.  The result is the returned sample
pointer (`none` is `NULL`) and the variables afterwards.  The outer `none` is an
undefined execution: an index outside `bindings` or `samples`, or the
dereference of the null PU when `cpu` is not in the topology.  Messages of
`perror` are not part of the state. -/
def roofline_sampling_caller (st : sampler) (os : os_answer) (id : Int) :
    Option (Option Nat × sampler) :=
  if id > 0 then
    match st.bindings[id.toNat]? with
    | none => none
    | some b =>
      match list_get st.samples b with
      | none => none
      | some _ => some (some b, st)
  else
    match resolved_cpu os with
    | none => some (none, st)
    | some cpu =>
      match hwloc_get_pu_obj_by_os_index st.pus cpu with
      | none => none
      | some PU =>
        if (-id).toNat < st.bindings.length then
          match list_get st.samples PU.logical_index with
          | none => none
          | some _ =>
            some (some PU.logical_index,
              { st with bindings := st.bindings.set (-id).toNat PU.logical_index })
        else none

/-! ## The steps of start and stop on a sample -/

/-- The statement `__sync_fetch_and_add(&s->n_threads, 1)` of start. -/
def sample_attach (st : sampler) (s : Nat) : sampler :=
  { st with
    samples :=
      update_sample (fun x => { x with n_threads := wrap_int (x.n_threads + 1) }) st.samples s }

/-- The statements `s->bytes = bytes; s->flops = flops;` of start, compiled
only without `_PAPI_`. -/
def sample_set_counts (st : sampler) (s : Nat) (flops bytes : Int) : sampler :=
  if st.papi then st
  else
    { st with
      samples :=
        update_sample (fun x => { x with bytes := to_u64 bytes, flops := to_u64 flops })
          st.samples s }

/-- The statement `if(!__sync_fetch_and_add(&s->last_thread, 1)){ ... s->s_nano
= now; }` of start: the thread that reads `0` arms the sample. -/
def sample_arm (st : sampler) (s : Nat) (now : Nat) : sampler :=
  { st with
    samples :=
      update_sample (fun x =>
        { x with
          s_nano := if x.last_thread = 0 then now else x.s_nano
          last_thread := wrap_int (x.last_thread + 1) }) st.samples s }

/-- The value of `s->flops` that the finalizing thread computes from the raw
counts: `values[0] + FLOPS * values[1]`, in `long long`, stored in a
`uint64_t`. -/
def papi_flops (FLOPS : Nat) (v : papi_values) : Nat :=
  to_u64 (v.v0 + (FLOPS : Int) * v.v1)

/-- The value of `s->bytes` that the finalizing thread computes from the raw
counts, with `muops` and `fuops` of type `unsigned long`. -/
def papi_bytes (FLOPS : Nat) (v : papi_values) : Nat :=
  let muops : Nat := to_u64 (v.v3 + v.v2)
  let fuops : Nat := to_u64 (v.v0 + v.v1)
  if fuops > 0 then
    mul_u64 (mul_u64 8 muops / fuops) (to_u64 ((FLOPS : Int) * v.v1 + v.v0))
  else mul_u64 8 muops

/-- The statement `if(__sync_fetch_and_sub(&s->last_thread, 1) == 1){ ... }` of
stop: the thread that reads `1` finalizes the sample, from the raw counts with
`_PAPI_` and with the end time stamp only without. -/
def sample_finalize (st : sampler) (s : Nat) (now : Nat) (values : papi_values) : sampler :=
  { st with
    samples :=
      update_sample (fun x =>
        if x.last_thread = 1 then
          if st.papi then
            { x with
              last_thread := wrap_int (x.last_thread - 1)
              e_nano := now
              flops := papi_flops st.FLOPS values
              bytes := papi_bytes st.FLOPS values }
          else { x with last_thread := wrap_int (x.last_thread - 1), e_nano := now }
        else { x with last_thread := wrap_int (x.last_thread - 1) }) st.samples s }

/-- The lines that the reduction loop of stop prints: one per node at the
reduction depth whose arity is not `0`. -/
def reduce_records (st : sampler) (info : String) : List record :=
  (st.nodes.filter (fun n => decide (n.arity ≠ 0))).map (fun n =>
    roofline_samples_reduce (sub_list st.samples n.userdata.1 n.userdata.2) (some n.obj) info)

/-- The end of `roofline_sequential_sampling_stop`: the reduction loop and
`list_apply(samples, roofline_sample_reset)`.  With OpenMP it runs after the
barrier, in one thread of the team. -/
def stop_reduce (st : sampler) (info : String) : sampler :=
  { st with
    output := st.output ++ reduce_records st info
    samples := list_apply st.samples roofline_sample_reset }

/-! ## Start and stop -/

/-- The function `roofline_sequential_sampling_start` run by one thread without
interruption: the returned pointer and the variables afterwards. -/
def roofline_sequential_sampling_start (st : sampler) (os : os_answer) (flops bytes : Int)
    (tid : Nat) (now : Nat) : Option (Option Nat × sampler) :=
  match roofline_sampling_caller st os (-(tid : Int)) with
  | none => none
  | some (none, st1) => some (none, st1)
  | some (some s, st1) =>
    some (some s, sample_arm (sample_set_counts (sample_attach st1 s) s flops bytes) s now)

/-- The function `roofline_sequential_sampling_stop` run by one thread without
interruption. -/
def roofline_sequential_sampling_stop (st : sampler) (sample : Option Nat) (info : String)
    (now : Nat) (values : papi_values) : sampler :=
  match sample with
  | none => st
  | some s => stop_reduce (sample_finalize st s now values) info

/-- The function `roofline_sampling_start` built without OpenMP. -/
def roofline_sampling_start (st : sampler) (os : os_answer) (flops bytes : Int) (now : Nat) :
    Option (Option Nat × sampler) :=
  roofline_sequential_sampling_start st os flops bytes 0 now

/-- The function `roofline_sampling_stop` built without OpenMP. -/
def roofline_sampling_stop (st : sampler) (sample : Option Nat) (info : String)
    (now : Nat) (values : papi_values) : sampler :=
  roofline_sequential_sampling_stop st sample info now values

/-! ## Start and stop of an OpenMP team

With OpenMP, `roofline_sampling_start` called with `parallel` outside a
parallel region forks a team; every thread of the team runs
`roofline_sequential_sampling_start` with its share of the counts.  The barrier
of start separates the increments of `n_threads` from the rest.  The threads
are run one after the other, in the order of the list.  A thread whose sample
is null returns before the barrier, and the other threads of the team then wait
at the barrier for ever: such a team has no result (`none`), as an undefined
execution has none. -/

/-- The part of start before the barrier, for each thread of the team: resolve
the sample and increment its `n_threads`.  The result lists the sample of each
thread.  There is none when a thread gets the null pointer: it returns before
the barrier and the team does not pass it. -/
def omp_start_attach : sampler → List omp_thread → Option (List Nat × sampler)
  | st, [] => some ([], st)
  | st, t :: ts =>
    match roofline_sampling_caller st t.os (-(t.thread_num : Int)) with
    | none => none
    | some (none, _) => none
    | some (some s, st1) =>
      (omp_start_attach (sample_attach st1 s) ts).map (fun r => (s :: r.1, r.2))

/-- The part of start after the barrier, for each thread of the team with its
sample: set the counts and take part in the election of the arming thread. -/
def omp_start_arm (flops bytes : Int) : sampler → List (Nat × omp_thread) → sampler
  | st, [] => st
  | st, (s, t) :: ts =>
    omp_start_arm flops bytes
      (sample_arm (sample_set_counts st s flops bytes) s t.start_clock) ts

/-- The function `roofline_sampling_start` built with OpenMP, in the branch
`parallel && !omp_in_parallel()`: each thread of the team is given
`flops/omp_get_num_threads()` and `bytes/omp_get_num_threads()`. -/
def omp_roofline_sampling_start (st : sampler) (team : List omp_thread) (flops bytes : Int) :
    Option sampler :=
  match omp_start_attach st team with
  | none => none
  | some (pointers, st1) =>
    some (omp_start_arm (flops.tdiv team.length) (bytes.tdiv team.length) st1
      (pointers.zip team))

/-- The part of stop before the barrier, for each thread of the team, in the
branch `sample == NULL` of `roofline_sampling_stop` built with OpenMP: the
thread resolves its sample with `roofline_sampling_caller(omp_get_thread_num())`
and takes part in the election of the finalizing thread.  There is no result
when a thread gets the null pointer: it returns before the barrier of stop and
the team does not pass it. -/
def omp_stop_finalize : sampler → List omp_thread → Option sampler
  | st, [] => some st
  | st, t :: ts =>
    match roofline_sampling_caller st t.os (t.thread_num : Int) with
    | none => none
    | some (none, _) => none
    | some (some s, st1) => omp_stop_finalize (sample_finalize st1 s t.stop_clock t.values) ts

/-- The function `roofline_sampling_stop` built with OpenMP, called with a null
sample outside a parallel region: the team finalizes, then one thread reduces
and resets. -/
def omp_roofline_sampling_stop (st : sampler) (team : List omp_thread) (info : String) :
    Option sampler :=
  (omp_stop_finalize st team).map (fun st1 => stop_reduce st1 info)

/-! ## Interleavings

The statements of start and stop that touch a sample, as the atomic steps of an
execution in which the threads of a team interleave. -/

/-- One step of one thread on the sample `s`. -/
inductive step where
  | attach (s : Nat)
  | set_counts (s : Nat) (flops bytes : Int)
  | arm (s : Nat) (now : Nat)
  | finalize (s : Nat) (now : Nat) (values : papi_values)
deriving DecidableEq, Repr

/-- The effect of a step. -/
def exec (st : sampler) : step → sampler
  | step.attach s => sample_attach st s
  | step.set_counts s flops bytes => sample_set_counts st s flops bytes
  | step.arm s now => sample_arm st s now
  | step.finalize s now values => sample_finalize st s now values

/-- The effect of a sequence of steps. -/
def run (st : sampler) (steps : List step) : sampler := List.foldl exec st steps

/-- The member `last_thread` of the sample `s`. -/
def last_thread_of (st : sampler) (s : Nat) : Option Int :=
  st.samples[s]?.map (fun x => x.last_thread)

/-- The step is a fetch-and-add on `last_thread` of the sample `s` that reads
`0`: the thread executes the arm branch. -/
def arm_branch (st : sampler) (s : Nat) : step → Bool
  | step.arm s1 _ => decide (s1 = s) && decide (last_thread_of st s = some 0)
  | _ => false

/-- The step is a fetch-and-sub on `last_thread` of the sample `s` that reads
`1`: the thread executes the finalize branch. -/
def finalize_branch (st : sampler) (s : Nat) : step → Bool
  | step.finalize s1 _ _ => decide (s1 = s) && decide (last_thread_of st s = some 1)
  | _ => false

/-- The number of executions of the arm branch and of the finalize branch on
the sample `s` along a sequence of steps. -/
def branches_taken (s : Nat) : sampler → List step → Nat × Nat
  | _, [] => (0, 0)
  | st, e :: es =>
    ((branches_taken s (exec st e) es).1 + (if arm_branch st s e then 1 else 0),
      (branches_taken s (exec st e) es).2 + (if finalize_branch st s e then 1 else 0))

/-- The step is the fetch-and-add of start on the sample `s`. -/
def is_arm_on (s : Nat) : step → Bool
  | step.arm s1 _ => decide (s1 = s)
  | _ => false

/-- The step is the fetch-and-sub of stop on the sample `s`. -/
def is_finalize_on (s : Nat) : step → Bool
  | step.finalize s1 _ _ => decide (s1 = s)
  | _ => false

/-- The steps of one thread in a schedule of pairs of a thread and a step. -/
def thread_steps (schedule : List (Nat × step)) (tid : Nat) : List step :=
  (schedule.filter (fun e => decide (e.1 = tid))).map (fun e => e.2)

/-- The steps of a thread that runs start and then stop on the sample `s`. -/
def is_start_then_stop (s : Nat) : List step → Bool
  | [step.attach a, step.set_counts b _ _, step.arm c _, step.finalize d _ _] =>
    decide (a = s) && decide (b = s) && decide (c = s) && decide (d = s)
  | _ => false

/-- The barrier of start is respected: no thread increments `n_threads` after a
thread has passed the barrier and set its counts. -/
def start_barrier_respected : List step → Bool
  | [] => true
  | step.attach _ :: es => start_barrier_respected es
  | _ :: es => List.all es (fun e => match e with | step.attach _ => false | _ => true)

/-! ## Initialisation -/

/-- The nodes at the reduction depth as `roofline_sampling_init` leaves them,
`j` being the logical index of the first one: a node of arity `0` is skipped,
and a node with children gets the sub-list that starts at the logical index of
its first PU and counts the PUs inside its cpuset. -/
def init_nodes (pus : List hwloc_pu) (reduction_depth : Nat) :
    Nat → List (Σ k, hwloc_obj k) → Option (List reduction_node)
  | _, [] => some []
  | j, o :: os =>
    if arity o.1 o.2 = 0 then
      (init_nodes pus reduction_depth (j + 1) os).map (fun ns =>
        { obj := ⟨reduction_depth, j⟩, arity := 0, userdata := (0, 0) } :: ns)
    else
      match first_PU o.1 o.2 with
      | none => none
      | some first =>
        (init_nodes pus reduction_depth (j + 1) os).map (fun ns =>
          { obj := ⟨reduction_depth, j⟩, arity := arity o.1 o.2,
            userdata := (first.logical_index,
              hwloc_get_nbobjs_inside_cpuset_by_type pus (cpuset o.1 o.2)) } :: ns)

/-- The ancestors at the reduction depth of the PUs, from left to right, `j`
being the logical index of the first object. -/
def ancestors (reduction_depth : Nat) : Nat → List (Σ k, hwloc_obj k) → List hwloc_obj_ref
  | _, [] => []
  | j, o :: os =>
    List.replicate (pus_below o.1 o.2).length ⟨reduction_depth, j⟩
      ++ ancestors reduction_depth (j + 1) os

/-- The function `roofline_sampling_init` on the topology `root` of height `H`:
one sample per PU, located at the ancestor of the PU at the reduction depth
(null when there is none), the table `bindings` of `max_threads` zeros, and the
sub-lists of the nodes at the reduction depth.  The output file, the header
line and the detection of `FLOPS` are outside the model. -/
def roofline_sampling_init (papi : Bool) (FLOPS : Nat) (H : Nat) (root : hwloc_obj H)
    (reduction_depth : Nat) (max_threads : Nat) : Option sampler :=
  match init_nodes (pus_below H root) reduction_depth 0
      (objs_at_depth H root reduction_depth) with
  | none => none
  | some nodes =>
    some
      { papi := papi
        FLOPS := FLOPS
        pus := pus_below H root
        nodes := nodes
        samples := (List.range (pus_below H root).length).map (fun i =>
          new_roofline_sample
            (ancestors reduction_depth 0 (objs_at_depth H root reduction_depth))[i]?)
        bindings := List.replicate max_threads 0
        output := [] }

/-- The sub-lists of the nodes at the reduction depth, as ranges of leaf
indexes. -/
def sub_ranges (st : sampler) : List (Nat × Nat) :=
  (st.nodes.filter (fun n => decide (n.arity ≠ 0))).map (fun n => n.userdata)

/-- What a step does to the sample at index `j`, as a function of the sample. -/
def step_effect (st : sampler) (j : Nat) : step → roofline_sample → roofline_sample
  | step.attach s => fun x =>
    if s = j then { x with n_threads := wrap_int (x.n_threads + 1) } else x
  | step.set_counts s flops bytes => fun x =>
    if s = j ∧ st.papi = false then { x with bytes := to_u64 bytes, flops := to_u64 flops }
    else x
  | step.arm s now => fun x =>
    if s = j then
      { x with
        s_nano := if x.last_thread = 0 then now else x.s_nano
        last_thread := wrap_int (x.last_thread + 1) }
    else x
  | step.finalize s now values => fun x =>
    if s = j then
      if x.last_thread = 1 then
        if st.papi then
          { x with
            last_thread := wrap_int (x.last_thread - 1)
            e_nano := now
            flops := papi_flops st.FLOPS values
            bytes := papi_bytes st.FLOPS values }
        else { x with last_thread := wrap_int (x.last_thread - 1), e_nano := now }
      else { x with last_thread := wrap_int (x.last_thread - 1) }
    else x

/-- The number of arm steps on the sample `s`. -/
def arms_on (s : Nat) (steps : List step) : Nat := steps.countP (is_arm_on s)

/-- The number of finalize steps on the sample `s`. -/
def finalizes_on (s : Nat) (steps : List step) : Nat := steps.countP (is_finalize_on s)

/-- A topology for the scenarios: a machine with a package of one core of two
PUs and a childless package. -/
def childless_package : hwloc_obj 3 := [[[⟨0, 0⟩, ⟨1, 1⟩]], []]

/-- A topology for the scenarios: a machine with a package of one childless
core and a package of one core of one PU. -/
def childless_core : hwloc_obj 3 := [[[]], [[⟨0, 0⟩]]]

/-- A topology for the scenarios: a machine with two cores of two PUs each. -/
def two_cores : hwloc_obj 2 := [[⟨0, 0⟩, ⟨1, 1⟩], [⟨2, 2⟩, ⟨3, 3⟩]]

/-! # Properties of accumulation and reduction -/


theorem add_u64_assoc (a b c : Nat) : add_u64 (add_u64 a b) c = add_u64 a (add_u64 b c) := by
  unfold add_u64; omega

theorem add_u64_comm (a b : Nat) : add_u64 a b = add_u64 b a := by
  unfold add_u64; omega

theorem wrap_int_add_left (a b : Int) : wrap_int (wrap_int a + b) = wrap_int (a + b) := by
  unfold wrap_int; omega

theorem wrap_int_add_right (a b : Int) : wrap_int (a + wrap_int b) = wrap_int (a + b) := by
  unfold wrap_int; omega

theorem accumulate_s_nano (a b : roofline_sample) :
    (roofline_sample_accumulate a b).s_nano
      = if sample_time a > sample_time b then a.s_nano else b.s_nano := rfl

theorem accumulate_e_nano (a b : roofline_sample) :
    (roofline_sample_accumulate a b).e_nano
      = if sample_time a > sample_time b then a.e_nano else b.e_nano := rfl

theorem accumulate_bytes (a b : roofline_sample) :
    (roofline_sample_accumulate a b).bytes = add_u64 a.bytes b.bytes := rfl

theorem accumulate_flops (a b : roofline_sample) :
    (roofline_sample_accumulate a b).flops = add_u64 a.flops b.flops := rfl

theorem accumulate_n_threads (a b : roofline_sample) :
    (roofline_sample_accumulate a b).n_threads = wrap_int (a.n_threads + b.n_threads) := rfl

theorem accumulate_location (a b : roofline_sample) :
    (roofline_sample_accumulate a b).location = a.location := rfl

theorem sample_time_accumulate (a b : roofline_sample) :
    sample_time (roofline_sample_accumulate a b) = max (sample_time a) (sample_time b) := by
  unfold roofline_sample_accumulate sample_time
  dsimp only
  split_ifs with h
  · exact (max_eq_left (le_of_lt h)).symm
  · exact (max_eq_right (not_lt.mp h)).symm

/-- The printed duration is determined by the duration the comparison reads. -/
theorem sub_u64_eq_of_sample_time_eq (a b : roofline_sample)
    (h : sample_time a = sample_time b) :
    sub_u64 a.e_nano a.s_nano = sub_u64 b.e_nano b.s_nano := by
  unfold sample_time to_long at h
  have ha : sub_u64 a.e_nano a.s_nano < 18446744073709551616 := by
    unfold sub_u64 to_u64; omega
  have hb : sub_u64 b.e_nano b.s_nano < 18446744073709551616 := by
    unfold sub_u64 to_u64; omega
  split_ifs at h <;> omega

theorem sample_time_of_forward (x : roofline_sample) (h : forward x) :
    sample_time x = ((x.e_nano - x.s_nano : Nat) : Int) := by
  obtain ⟨h1, h2⟩ := h
  unfold sample_time to_long sub_u64 to_u64
  split_ifs <;> omega


theorem sample_time_of_stamps {a b : roofline_sample} (h : stamps a = stamps b) :
    sample_time a = sample_time b := by
  unfold stamps at h
  unfold sample_time
  rw [(Prod.mk.inj h).1, (Prod.mk.inj h).2]

theorem stamps_accumulate (a b : roofline_sample) :
    stamps (roofline_sample_accumulate a b)
      = if sample_time a > sample_time b then stamps a else stamps b := by
  unfold stamps
  rw [accumulate_s_nano, accumulate_e_nano]
  split_ifs <;> rfl

theorem fold_location (l : List roofline_sample) (a : roofline_sample) :
    (List.foldl roofline_sample_accumulate a l).location = a.location := by
  induction l generalizing a with
  | nil => rfl
  | cons x l ih => rw [List.foldl_cons, ih, accumulate_location]

theorem fold_bytes (l : List roofline_sample) (a : roofline_sample)
    (h : a.bytes < 18446744073709551616) :
    (List.foldl roofline_sample_accumulate a l).bytes
      = (a.bytes + (l.map (fun x => x.bytes)).sum) % 18446744073709551616 := by
  induction l generalizing a with
  | nil => simp; omega
  | cons x l ih =>
    rw [List.foldl_cons, ih _ (by rw [accumulate_bytes]; unfold add_u64; omega),
      accumulate_bytes, List.map_cons, List.sum_cons]
    unfold add_u64
    omega

theorem fold_flops (l : List roofline_sample) (a : roofline_sample)
    (h : a.flops < 18446744073709551616) :
    (List.foldl roofline_sample_accumulate a l).flops
      = (a.flops + (l.map (fun x => x.flops)).sum) % 18446744073709551616 := by
  induction l generalizing a with
  | nil => simp; omega
  | cons x l ih =>
    rw [List.foldl_cons, ih _ (by rw [accumulate_flops]; unfold add_u64; omega),
      accumulate_flops, List.map_cons, List.sum_cons]
    unfold add_u64
    omega

theorem fold_n_threads (l : List roofline_sample) (a : roofline_sample)
    (h : wrap_int a.n_threads = a.n_threads) :
    (List.foldl roofline_sample_accumulate a l).n_threads
      = wrap_int (a.n_threads + (l.map (fun x => x.n_threads)).sum) := by
  induction l generalizing a with
  | nil => simpa using h.symm
  | cons x l ih =>
    rw [List.foldl_cons, ih _ (by rw [accumulate_n_threads]; unfold wrap_int; omega),
      accumulate_n_threads, List.map_cons, List.sum_cons, wrap_int_add_left, add_assoc]

theorem fold_time_ge_seed (l : List roofline_sample) (a : roofline_sample) :
    sample_time a ≤ sample_time (List.foldl roofline_sample_accumulate a l) := by
  induction l generalizing a with
  | nil => exact le_refl _
  | cons x l ih =>
    rw [List.foldl_cons]
    refine le_trans ?_ (ih _)
    rw [sample_time_accumulate]
    exact le_max_left _ _

theorem fold_time_ge_mem (l : List roofline_sample) (a : roofline_sample) :
    ∀ x ∈ l, sample_time x ≤ sample_time (List.foldl roofline_sample_accumulate a l) := by
  induction l generalizing a with
  | nil => intro x hx; cases hx
  | cons y l ih =>
    intro x hx
    rw [List.foldl_cons]
    rcases List.mem_cons.mp hx with rfl | hx
    · refine le_trans ?_ (fold_time_ge_seed l _)
      rw [sample_time_accumulate]
      exact le_max_right _ _
    · exact ih _ x hx

/-- The time stamps that survive a fold are the seed's, when every element is
strictly shorter than the seed, and those of an element otherwise. -/
theorem fold_stamps (l : List roofline_sample) (a : roofline_sample) :
    (stamps (List.foldl roofline_sample_accumulate a l) = stamps a
        ∧ ∀ x ∈ l, sample_time x < sample_time a)
      ∨ ∃ x ∈ l, stamps (List.foldl roofline_sample_accumulate a l) = stamps x := by
  induction l generalizing a with
  | nil => left; exact ⟨rfl, fun x hx => by cases hx⟩
  | cons y l ih =>
    rw [List.foldl_cons]
    rcases ih (roofline_sample_accumulate a y) with ⟨h1, h2⟩ | ⟨x, hx, h⟩
    · rw [stamps_accumulate] at h1
      rw [sample_time_accumulate] at h2
      by_cases hc : sample_time a > sample_time y
      · left
        rw [if_pos hc] at h1
        refine ⟨h1, ?_⟩
        intro x hx
        rcases List.mem_cons.mp hx with rfl | hx
        · exact hc
        · have := h2 x hx
          rwa [max_eq_left (le_of_lt hc)] at this
      · right
        rw [if_neg hc] at h1
        exact ⟨y, List.mem_cons_self _ _, h1⟩
    · right
      exact ⟨x, List.mem_cons_of_mem _ hx, h⟩


theorem sample_time_seed (node : Option hwloc_obj_ref) :
    sample_time (reduce_seed node) = 0 := by
  show to_long (sub_u64 0 0) = 0
  decide

theorem reduced_sample_forward (l : List roofline_sample) (node : Option hwloc_obj_ref)
    (h : ∀ x ∈ l, forward x) : forward (reduced_sample l node) := by
  rcases fold_stamps l (reduce_seed node) with ⟨h1, _⟩ | ⟨x, hx, h1⟩
  · have h2 := Prod.mk.inj h1
    unfold forward reduced_sample list_reduce
    rw [h2.1, h2.2]
    exact ⟨le_refl _, by simp [reduce_seed]⟩
  · have h2 := Prod.mk.inj h1
    unfold forward reduced_sample list_reduce
    rw [h2.1, h2.2]
    exact h x hx

theorem nanoseconds_of_forward (x : roofline_sample) (info : String) (h : forward x) :
    (roofline_sample_print x info).nanoseconds = x.e_nano - x.s_nano := by
  obtain ⟨h1, h2⟩ := h
  unfold roofline_sample_print sub_u64 to_u64
  dsimp only
  omega

/-- The reduction of a list of forward samples: sums and slowest duration. -/
theorem reduce_forward_list (l : List roofline_sample) (node : Option hwloc_obj_ref)
    (info : String) (h : ∀ x ∈ l, forward x) :
    (roofline_samples_reduce l node info).bytes
        = (l.map (fun x => x.bytes)).sum % 18446744073709551616
    ∧ (roofline_samples_reduce l node info).flops
        = (l.map (fun x => x.flops)).sum % 18446744073709551616
    ∧ (roofline_samples_reduce l node info).n_threads
        = wrap_int (l.map (fun x => x.n_threads)).sum
    ∧ (roofline_samples_reduce l node info).location = node
    ∧ (reduced_sample l node).s_nano ≤ (reduced_sample l node).e_nano
    ∧ (roofline_samples_reduce l node info).nanoseconds
        = (reduced_sample l node).e_nano - (reduced_sample l node).s_nano
    ∧ (∀ x ∈ l, x.e_nano - x.s_nano ≤ (roofline_samples_reduce l node info).nanoseconds)
    ∧ (l ≠ [] → ∃ x ∈ l,
        (roofline_samples_reduce l node info).nanoseconds = x.e_nano - x.s_nano)
    ∧ (l = [] → (roofline_samples_reduce l node info).nanoseconds = 0) := by
  have hf := reduced_sample_forward l node h
  have hn := nanoseconds_of_forward (reduced_sample l node) info hf
  have hge : ∀ x ∈ l, x.e_nano - x.s_nano
      ≤ (reduced_sample l node).e_nano - (reduced_sample l node).s_nano := by
    intro x hx
    have h1 := fold_time_ge_mem l (reduce_seed node) x hx
    rw [sample_time_of_forward x (h x hx)] at h1
    have h2 := sample_time_of_forward _ hf
    unfold reduced_sample list_reduce at h2 ⊢
    rw [h2] at h1
    exact_mod_cast h1
  refine ⟨?_, ?_, ?_, ?_, hf.1, hn, ?_, ?_, ?_⟩
  · have := fold_bytes l (reduce_seed node) (by simp [reduce_seed])
    simpa [roofline_samples_reduce, roofline_sample_print, reduced_sample, list_reduce,
      reduce_seed] using this
  · have := fold_flops l (reduce_seed node) (by simp [reduce_seed])
    simpa [roofline_samples_reduce, roofline_sample_print, reduced_sample, list_reduce,
      reduce_seed] using this
  · have := fold_n_threads l (reduce_seed node) (by simp [reduce_seed, wrap_int])
    simpa [roofline_samples_reduce, roofline_sample_print, reduced_sample, list_reduce,
      reduce_seed] using this
  · exact fold_location l (reduce_seed node)
  · intro x hx
    unfold roofline_samples_reduce
    rw [hn]
    exact hge x hx
  · intro hne
    unfold roofline_samples_reduce
    rw [hn]
    rcases fold_stamps l (reduce_seed node) with ⟨h1, h2⟩ | ⟨x, hx, h1⟩
    · obtain ⟨y, hy⟩ := List.exists_mem_of_ne_nil l hne
      refine ⟨y, hy, ?_⟩
      have h3 := h2 y hy
      rw [sample_time_of_forward y (h y hy)] at h3
      have h4 : sample_time (reduce_seed node) = 0 := sample_time_seed node
      omega
    · refine ⟨x, hx, ?_⟩
      have h2 := Prod.mk.inj h1
      unfold reduced_sample list_reduce
      rw [h2.1, h2.2]
  · intro hnil
    subst hnil
    rfl


theorem reduced_time_cases (l : List roofline_sample) (node : Option hwloc_obj_ref) :
    sample_time (reduced_sample l node) = 0
      ∨ ∃ x ∈ l, sample_time (reduced_sample l node) = sample_time x := by
  rcases fold_stamps l (reduce_seed node) with ⟨h1, _⟩ | ⟨x, hx, h1⟩
  · left
    exact (sample_time_of_stamps h1).trans (sample_time_seed node)
  · right
    exact ⟨x, hx, sample_time_of_stamps h1⟩

theorem reduced_time_le_of_perm (l p : List roofline_sample) (node : Option hwloc_obj_ref)
    (hp : p.Perm l) :
    sample_time (reduced_sample p node) ≤ sample_time (reduced_sample l node) := by
  rcases reduced_time_cases p node with h | ⟨x, hx, h⟩
  · rw [h, ← sample_time_seed node]
    exact fold_time_ge_seed l (reduce_seed node)
  · rw [h]
    exact fold_time_ge_mem l (reduce_seed node) x (hp.subset hx)

theorem reduced_sums_of_perm (l p : List roofline_sample) (node : Option hwloc_obj_ref)
    (hp : p.Perm l) :
    (reduced_sample p node).bytes = (reduced_sample l node).bytes
    ∧ (reduced_sample p node).flops = (reduced_sample l node).flops
    ∧ (reduced_sample p node).n_threads = (reduced_sample l node).n_threads := by
  unfold reduced_sample list_reduce
  refine ⟨?_, ?_, ?_⟩
  · rw [fold_bytes p _ (by simp [reduce_seed]), fold_bytes l _ (by simp [reduce_seed]),
      (hp.map (fun x => x.bytes)).sum_eq]
  · rw [fold_flops p _ (by simp [reduce_seed]), fold_flops l _ (by simp [reduce_seed]),
      (hp.map (fun x => x.flops)).sum_eq]
  · rw [fold_n_threads p _ (by simp [reduce_seed, wrap_int]),
      fold_n_threads l _ (by simp [reduce_seed, wrap_int]),
      (hp.map (fun x => x.n_threads)).sum_eq]

theorem reduced_stamps_of_longest (p : List roofline_sample) (node : Option hwloc_obj_ref)
    (m : roofline_sample) (hm : m ∈ p) (h0 : 0 ≤ sample_time m)
    (hmax : ∀ x ∈ p, sample_time x < sample_time m ∨ stamps x = stamps m) :
    stamps (reduced_sample p node) = stamps m := by
  rcases fold_stamps p (reduce_seed node) with ⟨_, h2⟩ | ⟨x, hx, h1⟩
  · have := h2 m hm
    rw [sample_time_seed] at this
    omega
  · rcases hmax x hx with h | h
    · have h3 := fold_time_ge_mem p (reduce_seed node) m hm
      have h4 := sample_time_of_stamps h1
      omega
    · exact h1.trans h

/-- C1 (amended).  For every reduction-level node and every sub-range of leaf
samples, each with `s_nano <= e_nano` and a duration below `2^63` ns,
`roofline_samples_reduce` yields a record whose bytes and flops are the sums of
the leaves' bytes and flops modulo `2^64`, whose `n_threads` is the sum of the
leaves' `n_threads` as an `int`, whose location is the node, and whose elapsed
time `e_nano - s_nano` is the largest leaf duration: no leaf lasts longer, a
leaf lasts exactly as long when the sub-range is not empty, and it is `0` when
the sub-range is empty. -/
theorem roofline_samples_reduce_sub_range (samples : List roofline_sample) (start count : Nat)
    (node : hwloc_obj_ref) (info : String)
    (h : ∀ x ∈ sub_list samples start count,
      x.s_nano ≤ x.e_nano ∧ x.e_nano - x.s_nano < 9223372036854775808) :
    (roofline_samples_reduce (sub_list samples start count) (some node) info).bytes
        = ((sub_list samples start count).map (fun x => x.bytes)).sum % 18446744073709551616
    ∧ (roofline_samples_reduce (sub_list samples start count) (some node) info).flops
        = ((sub_list samples start count).map (fun x => x.flops)).sum % 18446744073709551616
    ∧ (roofline_samples_reduce (sub_list samples start count) (some node) info).n_threads
        = wrap_int ((sub_list samples start count).map (fun x => x.n_threads)).sum
    ∧ (roofline_samples_reduce (sub_list samples start count) (some node) info).location
        = some node
    ∧ (reduced_sample (sub_list samples start count) (some node)).s_nano
        ≤ (reduced_sample (sub_list samples start count) (some node)).e_nano
    ∧ (roofline_samples_reduce (sub_list samples start count) (some node) info).nanoseconds
        = (reduced_sample (sub_list samples start count) (some node)).e_nano
          - (reduced_sample (sub_list samples start count) (some node)).s_nano
    ∧ (∀ x ∈ sub_list samples start count, x.e_nano - x.s_nano
        ≤ (roofline_samples_reduce (sub_list samples start count) (some node) info).nanoseconds)
    ∧ (sub_list samples start count ≠ [] → ∃ x ∈ sub_list samples start count,
        (roofline_samples_reduce (sub_list samples start count) (some node) info).nanoseconds
          = x.e_nano - x.s_nano)
    ∧ (sub_list samples start count = [] →
        (roofline_samples_reduce (sub_list samples start count) (some node) info).nanoseconds
          = 0) :=
  reduce_forward_list (sub_list samples start count) (some node) info h

/-- C1, the scenario of the specification: leaf A (100 ns, 10 flops, 20 bytes,
one thread) and leaf B (150 ns, 5 flops, 5 bytes, one thread) under the same
node reduce to 150 ns, 15 flops, 25 bytes and 2 threads. -/
theorem roofline_samples_reduce_sub_range_witness :
    (∀ x ∈ sub_list [(⟨0, 1000, 1100, 10, 20, some ⟨1, 0⟩, 1⟩ : roofline_sample),
        ⟨0, 1000, 1150, 5, 5, some ⟨1, 0⟩, 1⟩] 0 2,
      x.s_nano ≤ x.e_nano ∧ x.e_nano - x.s_nano < 9223372036854775808)
    ∧ (roofline_samples_reduce (sub_list [(⟨0, 1000, 1100, 10, 20, some ⟨1, 0⟩, 1⟩ :
        roofline_sample), ⟨0, 1000, 1150, 5, 5, some ⟨1, 0⟩, 1⟩] 0 2) (some ⟨1, 0⟩) "")
        = ⟨some ⟨1, 0⟩, 150, 25, 15, 2, ""⟩ := by
  have h := roofline_samples_reduce_sub_range
    [(⟨0, 1000, 1100, 10, 20, some ⟨1, 0⟩, 1⟩ : roofline_sample),
      ⟨0, 1000, 1150, 5, 5, some ⟨1, 0⟩, 1⟩] 0 2 ⟨1, 0⟩ "" (by decide)
  refine ⟨by decide, ?_⟩
  obtain ⟨hb, hf, hn, hl, -, -, hge, hex, -⟩ := h
  obtain ⟨x, hx, he⟩ := hex (by decide)
  have h150 := hge ⟨0, 1000, 1150, 5, 5, some ⟨1, 0⟩, 1⟩ (by decide)
  have hns : (roofline_samples_reduce (sub_list [(⟨0, 1000, 1100, 10, 20, some ⟨1, 0⟩, 1⟩ :
        roofline_sample), ⟨0, 1000, 1150, 5, 5, some ⟨1, 0⟩, 1⟩] 0 2) (some ⟨1, 0⟩)
        "").nanoseconds = 150 := by
    have hx2 : x = ⟨0, 1000, 1100, 10, 20, some ⟨1, 0⟩, 1⟩
        ∨ x = ⟨0, 1000, 1150, 5, 5, some ⟨1, 0⟩, 1⟩ := by
      simpa [sub_list] using hx
    rcases hx2 with rfl | rfl
    · simp only at he h150
      omega
    · exact he
  decide

/-- C1, as stated, fails: a single leaf with `s_nano = 0 <= e_nano = 2^63` has
the largest duration `2^63`, and the reduced record reports `0` ns; and two
leaves of `2^63` bytes each reduce to `0` bytes, not to their sum `2^64`. -/
theorem roofline_samples_reduce_counterexample :
    ((⟨0, 0, 9223372036854775808, 0, 0, some ⟨1, 0⟩, 1⟩ : roofline_sample).s_nano
        ≤ (⟨0, 0, 9223372036854775808, 0, 0, some ⟨1, 0⟩, 1⟩ : roofline_sample).e_nano
      ∧ (roofline_samples_reduce
          (sub_list [(⟨0, 0, 9223372036854775808, 0, 0, some ⟨1, 0⟩, 1⟩ : roofline_sample)] 0 1)
          (some ⟨1, 0⟩) "").nanoseconds = 0)
    ∧ (roofline_samples_reduce
          (sub_list [(⟨0, 0, 0, 0, 9223372036854775808, some ⟨1, 0⟩, 1⟩ : roofline_sample),
            ⟨0, 0, 0, 0, 9223372036854775808, some ⟨1, 0⟩, 1⟩] 0 2)
          (some ⟨1, 0⟩) "").bytes = 0 := by
  decide

/-- C5 (amended).  Folding `roofline_sample_accumulate` from the all-zero seed
over any permutation of a collection of samples yields the same bytes, flops,
`n_threads` and elapsed time `e_nano - s_nano`; and when the collection has a
sample whose duration, read as the code reads it (a `long`), is not negative
and is strictly larger than the duration of every sample with other time
stamps, the resulting `s_nano` and `e_nano` are those of that sample. -/
theorem reduce_permutation (l p : List roofline_sample) (node : Option hwloc_obj_ref)
    (hp : p.Perm l) :
    (reduced_sample p node).bytes = (reduced_sample l node).bytes
    ∧ (reduced_sample p node).flops = (reduced_sample l node).flops
    ∧ (reduced_sample p node).n_threads = (reduced_sample l node).n_threads
    ∧ sub_u64 (reduced_sample p node).e_nano (reduced_sample p node).s_nano
        = sub_u64 (reduced_sample l node).e_nano (reduced_sample l node).s_nano
    ∧ ∀ m ∈ l, 0 ≤ sample_time m →
        (∀ x ∈ l, sample_time x < sample_time m
          ∨ (x.s_nano = m.s_nano ∧ x.e_nano = m.e_nano)) →
        (reduced_sample p node).s_nano = m.s_nano
          ∧ (reduced_sample p node).e_nano = m.e_nano := by
  obtain ⟨hb, hf, hn⟩ := reduced_sums_of_perm l p node hp
  refine ⟨hb, hf, hn, ?_, ?_⟩
  · apply sub_u64_eq_of_sample_time_eq
    exact le_antisymm (reduced_time_le_of_perm l p node hp)
      (reduced_time_le_of_perm p l node hp.symm)
  · intro m hm h0 hmax
    have := reduced_stamps_of_longest p node m (hp.symm.subset hm) h0 (by
      intro x hx
      rcases hmax x (hp.subset hx) with h | ⟨h1, h2⟩
      · exact Or.inl h
      · right
        unfold stamps
        rw [h1, h2])
    exact Prod.mk.inj this

/-- C5 at two leaves of 100 ns and 150 ns, folded in the other order: the time
stamps are those of the 150 ns leaf. -/
theorem reduce_permutation_witness :
    List.Perm [(⟨0, 1000, 1150, 5, 5, none, 1⟩ : roofline_sample), ⟨0, 1000, 1100, 10, 20, none, 1⟩]
      [⟨0, 1000, 1100, 10, 20, none, 1⟩, ⟨0, 1000, 1150, 5, 5, none, 1⟩]
    ∧ (reduced_sample [(⟨0, 1000, 1150, 5, 5, none, 1⟩ : roofline_sample),
        ⟨0, 1000, 1100, 10, 20, none, 1⟩] none).s_nano = 1000
    ∧ (reduced_sample [(⟨0, 1000, 1150, 5, 5, none, 1⟩ : roofline_sample),
        ⟨0, 1000, 1100, 10, 20, none, 1⟩] none).e_nano = 1150 :=
  ⟨List.Perm.swap _ _ _,
    (reduce_permutation [⟨0, 1000, 1100, 10, 20, none, 1⟩, ⟨0, 1000, 1150, 5, 5, none, 1⟩]
      [⟨0, 1000, 1150, 5, 5, none, 1⟩, ⟨0, 1000, 1100, 10, 20, none, 1⟩] none
      (List.Perm.swap _ _ _)).2.2.2.2 ⟨0, 1000, 1150, 5, 5, none, 1⟩ (by decide) (by decide)
      (by decide)⟩

/-- C5, as stated, fails: two samples of the same duration 10 and different
time stamps fold to the time stamps of whichever comes last, so the two orders
of the same collection disagree; and the only sample of a collection, with
`s_nano = 10` and `e_nano = 5`, has the maximal duration while the fold keeps
the seed's time stamps `0` and `0`. -/
theorem reduce_permutation_counterexample :
    ((reduced_sample [(⟨0, 0, 10, 0, 0, none, 1⟩ : roofline_sample),
          ⟨0, 5, 15, 0, 0, none, 1⟩] none).s_nano = 5
      ∧ (reduced_sample [(⟨0, 5, 15, 0, 0, none, 1⟩ : roofline_sample),
          ⟨0, 0, 10, 0, 0, none, 1⟩] none).s_nano = 0)
    ∧ ((reduced_sample [(⟨0, 10, 5, 0, 0, none, 1⟩ : roofline_sample)] none).s_nano = 0
      ∧ (reduced_sample [(⟨0, 10, 5, 0, 0, none, 1⟩ : roofline_sample)] none).e_nano = 0) := by
  decide

/-- C6 (amended).  `roofline_sample_accumulate` is associative on the measured
members (`s_nano`, `e_nano`, `bytes`, `flops`, `n_threads`); it is commutative
on `bytes`, `flops`, `n_threads` and on the elapsed time `e_nano - s_nano`, and
on `s_nano` and `e_nano` as well when the two durations differ. -/
theorem roofline_sample_accumulate_assoc_comm (a b c : roofline_sample) :
    measured (roofline_sample_accumulate (roofline_sample_accumulate a b) c)
        = measured (roofline_sample_accumulate a (roofline_sample_accumulate b c))
    ∧ (roofline_sample_accumulate a b).bytes = (roofline_sample_accumulate b a).bytes
    ∧ (roofline_sample_accumulate a b).flops = (roofline_sample_accumulate b a).flops
    ∧ (roofline_sample_accumulate a b).n_threads = (roofline_sample_accumulate b a).n_threads
    ∧ sub_u64 (roofline_sample_accumulate a b).e_nano (roofline_sample_accumulate a b).s_nano
        = sub_u64 (roofline_sample_accumulate b a).e_nano (roofline_sample_accumulate b a).s_nano
    ∧ (sample_time a ≠ sample_time b →
        measured (roofline_sample_accumulate a b) = measured (roofline_sample_accumulate b a)) := by
  refine ⟨?_, ?_, ?_, ?_, ?_, ?_⟩
  · unfold measured
    simp only [Prod.mk.injEq]
    refine ⟨?_, ?_, ?_, ?_, ?_⟩
    · simp only [accumulate_s_nano, sample_time_accumulate]
      split_ifs <;> first | rfl | omega
    · simp only [accumulate_e_nano, sample_time_accumulate]
      split_ifs <;> first | rfl | omega
    · simp only [accumulate_bytes, add_u64_assoc]
    · simp only [accumulate_flops, add_u64_assoc]
    · simp only [accumulate_n_threads, wrap_int_add_left, wrap_int_add_right, add_assoc]
  · simp only [accumulate_bytes, add_u64_comm]
  · simp only [accumulate_flops, add_u64_comm]
  · simp only [accumulate_n_threads, add_comm]
  · apply sub_u64_eq_of_sample_time_eq
    rw [sample_time_accumulate, sample_time_accumulate, max_comm]
  · intro h
    unfold measured
    simp only [Prod.mk.injEq]
    refine ⟨?_, ?_, ?_, ?_, ?_⟩
    · simp only [accumulate_s_nano]
      split_ifs <;> first | rfl | omega
    · simp only [accumulate_e_nano]
      split_ifs <;> first | rfl | omega
    · simp only [accumulate_bytes, add_u64_comm]
    · simp only [accumulate_flops, add_u64_comm]
    · simp only [accumulate_n_threads, add_comm]

/-- C6 at samples of 100 ns and 150 ns: the two orders agree on all measured
members. -/
theorem roofline_sample_accumulate_assoc_comm_witness :
    sample_time ⟨0, 1000, 1100, 10, 20, none, 1⟩ ≠ sample_time ⟨0, 1000, 1150, 5, 5, none, 1⟩
    ∧ measured (roofline_sample_accumulate ⟨0, 1000, 1100, 10, 20, none, 1⟩
          ⟨0, 1000, 1150, 5, 5, none, 1⟩)
        = measured (roofline_sample_accumulate ⟨0, 1000, 1150, 5, 5, none, 1⟩
          ⟨0, 1000, 1100, 10, 20, none, 1⟩) :=
  ⟨by decide,
    (roofline_sample_accumulate_assoc_comm ⟨0, 1000, 1100, 10, 20, none, 1⟩
      ⟨0, 1000, 1150, 5, 5, none, 1⟩ ⟨0, 0, 0, 0, 0, none, 0⟩).2.2.2.2.2 (by decide)⟩

/-- C6, as stated, fails: for two samples of the same duration 10 and
different time stamps, combining a with b keeps the time stamps of b and
combining b with a keeps those of a. -/
theorem roofline_sample_accumulate_comm_counterexample :
    measured (roofline_sample_accumulate ⟨0, 0, 10, 0, 0, none, 0⟩ ⟨0, 5, 15, 0, 0, none, 0⟩)
      ≠ measured (roofline_sample_accumulate ⟨0, 5, 15, 0, 0, none, 0⟩
          ⟨0, 0, 10, 0, 0, none, 0⟩) := by
  decide

/-! # Properties of the steps of start and stop -/

theorem length_update_sample (f : roofline_sample → roofline_sample)
    (l : List roofline_sample) (i : Nat) : (update_sample f l i).length = l.length := by
  induction l generalizing i with
  | nil => rfl
  | cons x xs ih =>
    cases i with
    | zero => rfl
    | succ i => simp [update_sample, ih]

theorem getElem?_update_sample (f : roofline_sample → roofline_sample)
    (l : List roofline_sample) (i j : Nat) :
    (update_sample f l i)[j]? = if i = j then l[j]?.map f else l[j]? := by
  induction l generalizing i j with
  | nil => simp [update_sample]
  | cons x xs ih =>
    cases i with
    | zero =>
      cases j with
      | zero => simp [update_sample]
      | succ j => simp [update_sample]
    | succ i =>
      cases j with
      | zero => simp [update_sample]
      | succ j => simp [update_sample, ih]

theorem getElem?_exec (st : sampler) (e : step) (j : Nat) :
    (exec st e).samples[j]? = st.samples[j]?.map (step_effect st j e) := by
  cases e with
  | attach s =>
    simp only [exec, sample_attach, step_effect, getElem?_update_sample]
    split_ifs <;> simp
  | set_counts s flops bytes =>
    simp only [exec, sample_set_counts, step_effect]
    cases hp : st.papi
    · simp only [getElem?_update_sample, Bool.false_eq_true, if_false, and_true]
      split_ifs <;> simp
    · simp
  | arm s now =>
    simp only [exec, sample_arm, step_effect, getElem?_update_sample]
    split_ifs <;> simp
  | finalize s now values =>
    simp only [exec, sample_finalize, step_effect, getElem?_update_sample]
    split_ifs <;> simp


theorem step_effect_location (st : sampler) (j : Nat) (e : step) (x : roofline_sample) :
    (step_effect st j e x).location = x.location := by
  cases e <;> simp only [step_effect] <;> split_ifs <;> rfl

theorem step_effect_last_thread (st : sampler) (j : Nat) (e : step) (x : roofline_sample) :
    (step_effect st j e x).last_thread
      = if is_arm_on j e then wrap_int (x.last_thread + 1)
        else if is_finalize_on j e then wrap_int (x.last_thread - 1)
        else x.last_thread := by
  cases e <;> simp only [step_effect, is_arm_on, is_finalize_on] <;> split_ifs <;> simp_all

theorem run_cons (st : sampler) (e : step) (es : List step) :
    run st (e :: es) = run (exec st e) es := rfl

theorem run_append_steps (st : sampler) (a b : List step) :
    run st (a ++ b) = run (run st a) b := by
  unfold run
  rw [List.foldl_append]

theorem wrap_int_wrap_int (a : Int) : wrap_int (wrap_int a) = wrap_int a := by
  unfold wrap_int; omega

/-- Along any sequence of steps a sample keeps its location, and its
`last_thread` moves by the number of arm steps minus the number of finalize
steps on it. -/
theorem run_sample (steps : List step) (st : sampler) (j : Nat) (x : roofline_sample)
    (hx : st.samples[j]? = some x) (hr : wrap_int x.last_thread = x.last_thread) :
    ∃ y, (run st steps).samples[j]? = some y ∧ y.location = x.location
      ∧ y.last_thread
        = wrap_int (x.last_thread + (arms_on j steps : Int) - (finalizes_on j steps : Int)) := by
  induction steps generalizing st x with
  | nil =>
    refine ⟨x, hx, rfl, ?_⟩
    simp [arms_on, finalizes_on, hr]
  | cons e es ih =>
    have h1 : (exec st e).samples[j]? = some (step_effect st j e x) := by
      rw [getElem?_exec, hx]; rfl
    have h2 : wrap_int (step_effect st j e x).last_thread
        = (step_effect st j e x).last_thread := by
      rw [step_effect_last_thread]
      split_ifs
      · exact wrap_int_wrap_int _
      · exact wrap_int_wrap_int _
      · exact hr
    obtain ⟨y, hy1, hy2, hy3⟩ := ih (exec st e) (step_effect st j e x) h1 h2
    refine ⟨y, by rw [run_cons]; exact hy1, by rw [hy2, step_effect_location], ?_⟩
    rw [hy3, step_effect_last_thread]
    unfold arms_on finalizes_on
    rw [List.countP_cons, List.countP_cons]
    cases e with
    | attach s => simp [is_arm_on, is_finalize_on]
    | set_counts s flops bytes => simp [is_arm_on, is_finalize_on]
    | arm s now =>
      by_cases h : s = j
      · simp only [is_arm_on, is_finalize_on, h, decide_True, if_true, Bool.false_eq_true,
          if_false]
        push_cast
        unfold wrap_int
        omega
      · simp [is_arm_on, is_finalize_on, h]
    | finalize s now values =>
      by_cases h : s = j
      · simp only [is_arm_on, is_finalize_on, h, decide_True, if_true, Bool.false_eq_true,
          if_false]
        push_cast
        unfold wrap_int
        omega
      · simp [is_arm_on, is_finalize_on, h]

theorem length_exec (st : sampler) (e : step) :
    (exec st e).samples.length = st.samples.length := by
  cases e <;> simp only [exec, sample_attach, sample_set_counts, sample_arm, sample_finalize]
  · exact length_update_sample _ _ _
  · split
    · rfl
    · exact length_update_sample _ _ _
  · exact length_update_sample _ _ _
  · exact length_update_sample _ _ _

theorem length_run (steps : List step) (st : sampler) :
    (run st steps).samples.length = st.samples.length := by
  induction steps generalizing st with
  | nil => rfl
  | cons e es ih => rw [run_cons, ih, length_exec]


theorem exec_with_output (st : sampler) (o : List record) (e : step) :
    exec { st with output := o } e = { exec st e with output := o } := by
  cases e with
  | attach s => rfl
  | set_counts s flops bytes =>
    simp only [exec, sample_set_counts]
    split <;> rfl
  | arm s now => rfl
  | finalize s now values => rfl

theorem run_with_output (steps : List step) (st : sampler) (o : List record) :
    run { st with output := o } steps = { run st steps with output := o } := by
  induction steps generalizing st with
  | nil => rfl
  | cons e es ih => rw [run_cons, run_cons, exec_with_output, ih]

theorem exec_constants (st : sampler) (e : step) :
    (exec st e).papi = st.papi ∧ (exec st e).FLOPS = st.FLOPS ∧ (exec st e).pus = st.pus
      ∧ (exec st e).nodes = st.nodes ∧ (exec st e).bindings = st.bindings
      ∧ (exec st e).output = st.output := by
  cases e with
  | attach s => exact ⟨rfl, rfl, rfl, rfl, rfl, rfl⟩
  | set_counts s flops bytes =>
    simp only [exec, sample_set_counts]
    split <;> exact ⟨rfl, rfl, rfl, rfl, rfl, rfl⟩
  | arm s now => exact ⟨rfl, rfl, rfl, rfl, rfl, rfl⟩
  | finalize s now values => exact ⟨rfl, rfl, rfl, rfl, rfl, rfl⟩

theorem run_constants (steps : List step) (st : sampler) :
    (run st steps).papi = st.papi ∧ (run st steps).FLOPS = st.FLOPS
      ∧ (run st steps).pus = st.pus ∧ (run st steps).nodes = st.nodes
      ∧ (run st steps).bindings = st.bindings ∧ (run st steps).output = st.output := by
  induction steps generalizing st with
  | nil => exact ⟨rfl, rfl, rfl, rfl, rfl, rfl⟩
  | cons e es ih =>
    rw [run_cons]
    obtain ⟨h1, h2, h3, h4, h5, h6⟩ := ih (exec st e)
    obtain ⟨g1, g2, g3, g4, g5, g6⟩ := exec_constants st e
    exact ⟨h1.trans g1, h2.trans g2, h3.trans g3, h4.trans g4, h5.trans g5, h6.trans g6⟩

/-- The sequential start is the resolution of the thread followed by the three
steps of start on the resolved sample. -/
theorem sequential_start_as_steps (st st1 : sampler) (os : os_answer) (flops bytes : Int)
    (tid now s : Nat)
    (h : roofline_sampling_caller st os (-(tid : Int)) = some (some s, st1)) :
    roofline_sequential_sampling_start st os flops bytes tid now
      = some (some s,
          run st1 [step.attach s, step.set_counts s flops bytes, step.arm s now]) := by
  simp only [roofline_sequential_sampling_start, h]
  rfl

/-- The sequential stop on a sample is the finalize step followed by the
reduction and the reset. -/
theorem sequential_stop_as_steps (st : sampler) (s : Nat) (info : String) (now : Nat)
    (values : papi_values) :
    roofline_sequential_sampling_stop st (some s) info now values
      = stop_reduce (run st [step.finalize s now values]) info := rfl

/-- After a paired window and the reset, every sample is as constructed. -/
theorem samples_after_window (st : sampler) (steps : List step) (info : String)
    (h0 : ∀ x ∈ st.samples, x.last_thread = 0)
    (hp : ∀ s, arms_on s steps = finalizes_on s steps) :
    (stop_reduce (run st steps) info).samples
      = st.samples.map (fun x => new_roofline_sample x.location) := by
  apply List.ext_getElem?
  intro j
  simp only [stop_reduce, list_apply, List.getElem?_map]
  cases hx : st.samples[j]? with
  | none =>
    have h1 : (run st steps).samples[j]? = none := by
      rw [List.getElem?_eq_none_iff] at hx ⊢
      rw [length_run]
      exact hx
    rw [h1]
    rfl
  | some x =>
    have hx0 : x.last_thread = 0 := h0 x (List.getElem?_mem hx)
    obtain ⟨y, hy1, hy2, hy3⟩ := run_sample steps st j x hx (by rw [hx0]; decide)
    rw [hy1]
    simp only [Option.map_some']
    congr 1
    rw [hx0, hp j] at hy3
    have hy4 : y.last_thread = 0 := by
      rw [hy3]
      unfold wrap_int
      omega
    unfold roofline_sample_reset new_roofline_sample
    rw [hy2, hy4]

/-- The resolution of a thread writes the binding table only. -/
theorem caller_samples (st st1 : sampler) (os : os_answer) (id : Int) (r : Option Nat)
    (h : roofline_sampling_caller st os id = some (r, st1)) : st1.samples = st.samples := by
  unfold roofline_sampling_caller at h
  split at h
  · split at h
    · cases h
    · split at h
      · cases h
      · cases h; rfl
  · split at h
    · cases h; rfl
    · split at h
      · cases h
      · split at h
        · split at h
          · cases h
          · cases h; rfl
        · cases h

/-- One thread, without OpenMP: start on a resolved sample followed by stop
leaves every sample as constructed. -/
theorem sequential_window_restores (st st1 : sampler) (os : os_answer) (flops bytes : Int)
    (tid now s : Nat) (info : String) (now2 : Nat) (values : papi_values)
    (h0 : ∀ x ∈ st.samples, x.last_thread = 0)
    (h : roofline_sampling_caller st os (-(tid : Int)) = some (some s, st1)) :
    ∃ st2, roofline_sequential_sampling_start st os flops bytes tid now = some (some s, st2)
      ∧ (roofline_sequential_sampling_stop st2 (some s) info now2 values).samples
        = st.samples.map (fun x => new_roofline_sample x.location) := by
  have hs := caller_samples st st1 os _ _ h
  refine ⟨_, sequential_start_as_steps st st1 os flops bytes tid now s h, ?_⟩
  rw [sequential_stop_as_steps, ← run_append_steps, ← hs]
  apply samples_after_window st1 _ info (by rw [hs]; exact h0)
  intro j
  by_cases hj : s = j
  · subst hj
    simp [arms_on, finalizes_on, is_arm_on, is_finalize_on]
  · simp [arms_on, finalizes_on, is_arm_on, is_finalize_on, hj]

/-- C7.  Window cycle: from a store whose samples all have `last_thread = 0`,
after any interleaving of the steps of a window in which every sample gets as
many fetch-and-sub of stop as fetch-and-add of start (every thread that entered
start on a sample entered the matching stop), and after the reduce-and-reset
step of `roofline_sequential_sampling_stop`, every leaf sample has `s_nano =
e_nano = 0`, `bytes = flops = 0`, `n_threads = 0`, `last_thread = 0` and its
location: it is the freshly constructed sample (the reset writes neither
`last_thread` nor the location).  Hence, when the store was fresh before the
window, the sampler after it is the sampler before it with the records of the
window appended to the output, and a subsequent window prints exactly the
records it prints on the fresh store. -/
theorem window_cycle_restores_samples (st : sampler) (steps : List step) (info : String)
    (h0 : ∀ x ∈ st.samples, x.last_thread = 0)
    (hp : ∀ s, arms_on s steps = finalizes_on s steps) :
    (stop_reduce (run st steps) info).samples
        = st.samples.map (fun x => new_roofline_sample x.location)
    ∧ (∀ x ∈ (stop_reduce (run st steps) info).samples,
        x.s_nano = 0 ∧ x.e_nano = 0 ∧ x.bytes = 0 ∧ x.flops = 0 ∧ x.n_threads = 0
          ∧ x.last_thread = 0)
    ∧ (∀ x : roofline_sample, (roofline_sample_reset x).last_thread = x.last_thread
        ∧ (roofline_sample_reset x).location = x.location)
    ∧ ((∀ x ∈ st.samples, x = new_roofline_sample x.location) →
        stop_reduce (run st steps) info
            = { st with output := st.output ++ reduce_records (run st steps) info }
        ∧ ∀ (steps2 : List step) (info2 : String),
            reduce_records (run (stop_reduce (run st steps) info) steps2) info2
              = reduce_records (run st steps2) info2) := by
  have hs := samples_after_window st steps info h0 hp
  refine ⟨hs, ?_, fun x => ⟨rfl, rfl⟩, ?_⟩
  · intro x hx
    rw [hs] at hx
    obtain ⟨y, -, rfl⟩ := List.mem_map.mp hx
    exact ⟨rfl, rfl, rfl, rfl, rfl, rfl⟩
  · intro hfresh
    have hsame : (stop_reduce (run st steps) info).samples = st.samples := by
      rw [hs]
      conv_rhs => rw [← List.map_id st.samples]
      apply List.map_congr_left
      intro x hx
      exact (hfresh x hx).symm
    obtain ⟨c1, c2, c3, c4, c5, c6⟩ := run_constants steps st
    have heq : stop_reduce (run st steps) info
        = { st with output := st.output ++ reduce_records (run st steps) info } := by
      have h1 : (stop_reduce (run st steps) info).samples = st.samples := hsame
      unfold stop_reduce at h1 ⊢
      simp only at h1
      rw [h1, c6]
      cases hrun : run st steps
      rw [hrun] at c1 c2 c3 c4 c5
      simp only at c1 c2 c3 c4 c5
      subst c1 c2 c3 c4 c5
      rfl
    refine ⟨heq, ?_⟩
    intro steps2 info2
    rw [heq, run_with_output]
    rfl

/-- C7 at one thread on the first of two samples: start, stop, reduce and
reset. -/
theorem window_cycle_restores_samples_witness :
    (stop_reduce (run ⟨false, 1, [⟨0, 0⟩, ⟨1, 1⟩], [⟨⟨0, 0⟩, 2, (0, 2)⟩],
        [new_roofline_sample (some ⟨0, 0⟩), new_roofline_sample (some ⟨0, 0⟩)], [0, 0], []⟩
        [step.attach 0, step.set_counts 0 400 800, step.arm 0 1000,
          step.finalize 0 2000 ⟨0, 0, 0, 0⟩]) "").samples
      = [new_roofline_sample (some ⟨0, 0⟩), new_roofline_sample (some ⟨0, 0⟩)] :=
  (window_cycle_restores_samples ⟨false, 1, [⟨0, 0⟩, ⟨1, 1⟩], [⟨⟨0, 0⟩, 2, (0, 2)⟩],
      [new_roofline_sample (some ⟨0, 0⟩), new_roofline_sample (some ⟨0, 0⟩)], [0, 0], []⟩
    [step.attach 0, step.set_counts 0 400 800, step.arm 0 1000,
      step.finalize 0 2000 ⟨0, 0, 0, 0⟩] "" (by decide)
    (by
      intro s
      by_cases h : s = 0
      · subst h; decide
      · have h1 : ¬ (0 = s) := fun h2 => h h2.symm
        simp [arms_on, finalizes_on, is_arm_on, is_finalize_on, h1])).1


theorem last_thread_of_exec (st : sampler) (e : step) (s : Nat) :
    last_thread_of (exec st e) s
      = (last_thread_of st s).map (fun c =>
          if is_arm_on s e then wrap_int (c + 1)
          else if is_finalize_on s e then wrap_int (c - 1)
          else c) := by
  unfold last_thread_of
  rw [getElem?_exec]
  cases st.samples[s]? with
  | none => rfl
  | some x =>
    simp only [Option.map_some']
    rw [step_effect_last_thread]

theorem arm_branch_eq (st : sampler) (s : Nat) (e : step) :
    arm_branch st s e = (is_arm_on s e && decide (last_thread_of st s = some 0)) := by
  cases e <;> rfl

theorem finalize_branch_eq (st : sampler) (s : Nat) (e : step) :
    finalize_branch st s e = (is_finalize_on s e && decide (last_thread_of st s = some 1)) := by
  cases e <;> rfl

theorem branches_taken_cons (s : Nat) (st : sampler) (e : step) (es : List step) :
    branches_taken s st (e :: es)
      = ((branches_taken s (exec st e) es).1 + (if arm_branch st s e then 1 else 0),
          (branches_taken s (exec st e) es).2 + (if finalize_branch st s e then 1 else 0)) :=
  rfl

theorem branches_taken_append (s : Nat) (a b : List step) (st : sampler) :
    branches_taken s st (a ++ b)
      = ((branches_taken s st a).1 + (branches_taken s (run st a) b).1,
          (branches_taken s st a).2 + (branches_taken s (run st a) b).2) := by
  induction a generalizing st with
  | nil => simp [branches_taken, run]
  | cons e es ih =>
    rw [List.cons_append, branches_taken_cons, branches_taken_cons, run_cons, ih]
    simp only [Prod.mk.injEq]
    constructor <;> omega

/-- The start phase: while no thread decrements, the counter counts the
fetch-and-add, and only the one that reads `0` arms. -/
theorem arm_phase (s : Nat) (A : List step) (st : sampler) (c : Int)
    (hc : last_thread_of st s = some c) (h0 : 0 ≤ c)
    (hb : c + (arms_on s A : Int) < 2147483648) (hf : finalizes_on s A = 0) :
    last_thread_of (run st A) s = some (c + (arms_on s A : Int))
      ∧ branches_taken s st A = ((if c = 0 ∧ 0 < arms_on s A then 1 else 0), 0) := by
  induction A generalizing st c with
  | nil => simp [run, arms_on, branches_taken, hc]
  | cons e es ih =>
    have hfe : is_finalize_on s e = false ∧ finalizes_on s es = 0 := by
      unfold finalizes_on at hf ⊢
      rw [List.countP_cons] at hf
      constructor
      · by_contra h
        simp only [Bool.not_eq_false] at h
        rw [h] at hf
        simp at hf
      · omega
    have hlt := last_thread_of_exec st e s
    rw [hc] at hlt
    simp only [Option.map_some', hfe.1, Bool.false_eq_true, if_false] at hlt
    have hcount : arms_on s (e :: es) = arms_on s es + (if is_arm_on s e then 1 else 0) := by
      unfold arms_on
      rw [List.countP_cons]
    rw [hcount] at hb ⊢
    rw [run_cons]
    simp only [branches_taken, arm_branch_eq, finalize_branch_eq, hfe.1, Bool.false_and,
      Bool.false_eq_true, if_false, add_zero]
    cases ha : is_arm_on s e
    · simp only [ha, Bool.false_eq_true, if_false, Nat.cast_zero, add_zero] at hlt hb ⊢
      obtain ⟨i1, i2⟩ := ih (exec st e) c hlt h0 hb hfe.2
      rw [i1, i2]
      simp
    · simp only [ha, if_true, Nat.cast_add, Nat.cast_one] at hlt hb ⊢
      have hw : wrap_int (c + 1) = c + 1 := by
        unfold wrap_int; omega
      rw [hw] at hlt
      obtain ⟨i1, i2⟩ := ih (exec st e) (c + 1) hlt (by omega) (by omega) hfe.2
      rw [i1, i2, hc]
      refine ⟨by congr 1; ring, ?_⟩
      have hne : ¬ (c + 1 = 0) := by omega
      by_cases hz : c = 0
      · simp [hz]
      · simp [hz, hne]

/-- The stop phase: while no thread increments, the counter counts down the
fetch-and-sub, and only the one that reads `1` finalizes. -/
theorem finalize_phase (s : Nat) (F : List step) (st : sampler) (c : Int)
    (hc : last_thread_of st s = some c) (hm : (finalizes_on s F : Int) ≤ c)
    (hb : c < 2147483648) (ha : arms_on s F = 0) :
    last_thread_of (run st F) s = some (c - (finalizes_on s F : Int))
      ∧ branches_taken s st F
        = (0, (if (finalizes_on s F : Int) = c ∧ 0 < finalizes_on s F then 1 else 0)) := by
  induction F generalizing st c with
  | nil => simp [run, finalizes_on, branches_taken, hc]
  | cons e es ih =>
    have hae : is_arm_on s e = false ∧ arms_on s es = 0 := by
      unfold arms_on at ha ⊢
      rw [List.countP_cons] at ha
      constructor
      · by_contra h
        simp only [Bool.not_eq_false] at h
        rw [h] at ha
        simp at ha
      · omega
    have hlt := last_thread_of_exec st e s
    rw [hc] at hlt
    simp only [Option.map_some', hae.1, Bool.false_eq_true, if_false] at hlt
    have hcount : finalizes_on s (e :: es)
        = finalizes_on s es + (if is_finalize_on s e then 1 else 0) := by
      unfold finalizes_on
      rw [List.countP_cons]
    rw [hcount] at hm ⊢
    rw [run_cons]
    simp only [branches_taken, arm_branch_eq, finalize_branch_eq, hae.1, Bool.false_and,
      Bool.false_eq_true, if_false, add_zero]
    cases hf : is_finalize_on s e
    · simp only [hf, Bool.false_eq_true, if_false, Nat.cast_zero, add_zero] at hlt hm ⊢
      obtain ⟨i1, i2⟩ := ih (exec st e) c hlt hm hb hae.2
      rw [i1, i2]
      simp
    · simp only [hf, if_true, Nat.cast_add, Nat.cast_one] at hlt hm ⊢
      have hw : wrap_int (c - 1) = c - 1 := by
        unfold wrap_int; omega
      rw [hw] at hlt
      obtain ⟨i1, i2⟩ := ih (exec st e) (c - 1) hlt (by omega) (by omega) hae.2
      rw [i1, i2, hc]
      refine ⟨by congr 1; ring, ?_⟩
      simp only [Bool.true_and, Prod.mk.injEq, true_and, Option.some.injEq, decide_eq_true_eq]
      split_ifs <;> omega


/-- Separated phases, as when `roofline_sampling_start` forks the team itself
and the end of its parallel region joins it before any stop.  For a team of
`1 <= N < 2^31` threads on the sample `s`, with `last_thread` initially `0`:
when the `N` fetch-and-add of start all come before the `N` fetch-and-sub of
stop, in any order and interleaved with any other steps, exactly one
fetch-and-add reads `0` and exactly one fetch-and-sub reads `1`. -/
theorem election_with_separated_phases (st : sampler) (s N : Nat) (A F : List step)
    (h0 : last_thread_of st s = some 0) (h1 : 1 ≤ N) (h2 : N < 2147483648)
    (hA : arms_on s A = N) (hA0 : finalizes_on s A = 0)
    (hF0 : arms_on s F = 0) (hF : finalizes_on s F = N) :
    branches_taken s st (A ++ F) = (1, 1) := by
  obtain ⟨a1, a2⟩ := arm_phase s A st 0 h0 (le_refl 0) (by rw [hA]; omega) hA0
  rw [hA] at a1
  obtain ⟨f1, f2⟩ := finalize_phase s F (run st A) (0 + (N : Int)) a1 (by rw [hF]; omega)
    (by omega) hF0
  have e1 : (0 : Int) = 0 ∧ 0 < N := ⟨rfl, by omega⟩
  have e2 : (N : Int) = 0 + (N : Int) ∧ 0 < N := ⟨by omega, by omega⟩
  rw [branches_taken_append, a2, f2, hA, hF, if_pos e1, if_pos e2]
  rfl

/-- C2, on the code.  A team of two threads on the sample `0` inside a parallel
region, each running start and then stop, both past the barrier of start
before any fetch-and-add: thread 0 does its fetch-and-add, returns from start
and does the fetch-and-sub of stop before thread 1 does its fetch-and-add.
Both threads read `0` and execute the arm branch, and both read `1` and
execute the finalize branch: two arms and two finalizes, not one of each. -/
theorem election_race_in_parallel_region :
    is_start_then_stop 0
        (thread_steps
          [(0, step.attach 0), (1, step.attach 0),
            (0, step.set_counts 0 100 200), (0, step.arm 0 1000),
            (0, step.finalize 0 2000 ⟨0, 0, 0, 0⟩),
            (1, step.set_counts 0 100 200), (1, step.arm 0 2001),
            (1, step.finalize 0 3000 ⟨0, 0, 0, 0⟩)] 0) = true
    ∧ is_start_then_stop 0
        (thread_steps
          [(0, step.attach 0), (1, step.attach 0),
            (0, step.set_counts 0 100 200), (0, step.arm 0 1000),
            (0, step.finalize 0 2000 ⟨0, 0, 0, 0⟩),
            (1, step.set_counts 0 100 200), (1, step.arm 0 2001),
            (1, step.finalize 0 3000 ⟨0, 0, 0, 0⟩)] 1) = true
    ∧ start_barrier_respected
        [step.attach 0, step.attach 0, step.set_counts 0 100 200, step.arm 0 1000,
          step.finalize 0 2000 ⟨0, 0, 0, 0⟩, step.set_counts 0 100 200, step.arm 0 2001,
          step.finalize 0 3000 ⟨0, 0, 0, 0⟩] = true
    ∧ branches_taken 0 ⟨false, 1, [⟨0, 0⟩], [⟨⟨0, 0⟩, 1, (0, 1)⟩],
          [new_roofline_sample (some ⟨0, 0⟩)], [0, 0], []⟩
        [step.attach 0, step.attach 0, step.set_counts 0 100 200, step.arm 0 1000,
          step.finalize 0 2000 ⟨0, 0, 0, 0⟩, step.set_counts 0 100 200, step.arm 0 2001,
          step.finalize 0 3000 ⟨0, 0, 0, 0⟩] = (2, 2) := by
  decide

/-! # Resolution of the thread, failure and counter-derived metrics -/


/-- C9.  When the CPU of the calling thread cannot be resolved (the variable
`cpu` is still `-1` after the binding query and `sched_getcpu()`, as when both
fail), `roofline_sequential_sampling_start` returns the null pointer and
leaves every variable as it was: no sample and no entry of the binding table
is modified; and `roofline_sequential_sampling_stop` called with the null
pointer returns with every variable as it was: no sample is modified, no
reduction runs and no record is written. -/
theorem unresolved_thread_is_no_op (st : sampler) (os : os_answer) (flops bytes : Int)
    (tid : Nat) (now : Nat) (info : String) (now2 : Nat) (values : papi_values)
    (h : resolved_cpu os = none) :
    roofline_sequential_sampling_start st os flops bytes tid now = some (none, st)
    ∧ roofline_sequential_sampling_stop st none info now2 values = st := by
  refine ⟨?_, rfl⟩
  have hid : ¬ (-(tid : Int) > 0) := by omega
  simp only [roofline_sequential_sampling_start, roofline_sampling_caller, if_neg hid, h]

/-- C9 at a thread whose two queries fail. -/
theorem unresolved_thread_is_no_op_witness :
    resolved_cpu ⟨none, none⟩ = none
    ∧ roofline_sequential_sampling_start
        ⟨false, 1, [⟨0, 0⟩, ⟨1, 1⟩], [⟨⟨0, 0⟩, 2, (0, 2)⟩],
          [new_roofline_sample (some ⟨0, 0⟩), new_roofline_sample (some ⟨0, 0⟩)], [0, 0], []⟩
        ⟨none, none⟩ 400 800 1 1000
      = some (none, ⟨false, 1, [⟨0, 0⟩, ⟨1, 1⟩], [⟨⟨0, 0⟩, 2, (0, 2)⟩],
          [new_roofline_sample (some ⟨0, 0⟩), new_roofline_sample (some ⟨0, 0⟩)], [0, 0], []⟩) :=
  ⟨rfl, (unresolved_thread_is_no_op _ ⟨none, none⟩ 400 800 1 1000 "" 2000 ⟨0, 0, 0, 0⟩ rfl).1⟩

theorem caller_cached (st : sampler) (os : os_answer) (tid L : Nat) (h0 : 0 < tid)
    (hb : st.bindings[tid]? = some L) (hL : L < st.samples.length) :
    roofline_sampling_caller st os (tid : Int) = some (some L, st) := by
  have hid : (tid : Int) > 0 := by omega
  obtain ⟨x, hx⟩ : ∃ x, st.samples[L]? = some x := ⟨st.samples[L], List.getElem?_eq_getElem hL⟩
  simp only [roofline_sampling_caller, if_pos hid, Int.toNat_ofNat, hb, list_get, hx]

/-- C10 (amended).  For every thread id `tid` within the binding table, when
the start-side call `roofline_sampling_caller(-tid)` resolves the thread to the
PU of logical index `L`, it stores `bindings[tid] = L` and returns the sample
at index `L`; and for `tid > 0` every stop-side call
`roofline_sampling_caller(tid)` that follows, after any steps of start and stop
on the samples, returns the sample at index `bindings[tid] = L` whatever the
operating system would answer, and changes no variable; so does it in every
state where `bindings[tid]` is still `L`. -/
theorem binding_table_caches_resolution (st : sampler) (os : os_answer) (tid cpu : Nat)
    (PU : hwloc_pu) (htid : tid < st.bindings.length) (hcpu : resolved_cpu os = some cpu)
    (hpu : hwloc_get_pu_obj_by_os_index st.pus cpu = some PU)
    (hL : PU.logical_index < st.samples.length) :
    roofline_sampling_caller st os (-(tid : Int))
        = some (some PU.logical_index,
            { st with bindings := st.bindings.set tid PU.logical_index })
    ∧ (st.bindings.set tid PU.logical_index)[tid]? = some PU.logical_index
    ∧ (0 < tid → ∀ (steps : List step) (os2 : os_answer),
        roofline_sampling_caller
            (run { st with bindings := st.bindings.set tid PU.logical_index } steps) os2
            (tid : Int)
          = some (some PU.logical_index,
              run { st with bindings := st.bindings.set tid PU.logical_index } steps))
    ∧ (0 < tid → ∀ (st2 : sampler) (os2 : os_answer),
        st2.bindings[tid]? = some PU.logical_index →
        PU.logical_index < st2.samples.length →
        roofline_sampling_caller st2 os2 (tid : Int) = some (some PU.logical_index, st2)) := by
  have hset : (st.bindings.set tid PU.logical_index)[tid]? = some PU.logical_index := by
    exact List.getElem?_set_self htid
  refine ⟨?_, hset, ?_, fun h0 st2 os2 hb hl =>
    caller_cached st2 os2 tid PU.logical_index h0 hb hl⟩
  · have hid : ¬ (-(tid : Int) > 0) := by omega
    obtain ⟨x, hx⟩ : ∃ x, st.samples[PU.logical_index]? = some x :=
      ⟨st.samples[PU.logical_index], List.getElem?_eq_getElem hL⟩
    simp only [roofline_sampling_caller, if_neg hid, hcpu, hpu, neg_neg, Int.toNat_ofNat,
      if_pos htid, list_get, hx]
  · intro h0 steps os2
    apply caller_cached _ os2 tid PU.logical_index h0
    · rw [(run_constants steps _).2.2.2.2.1]
      exact hset
    · rw [length_run]
      exact hL

/-- C10 at thread 1 resolved to the PU of logical index 2. -/
theorem binding_table_caches_resolution_witness :
    roofline_sampling_caller
        ⟨false, 1, [⟨0, 0⟩, ⟨1, 1⟩, ⟨2, 2⟩], [⟨⟨0, 0⟩, 3, (0, 3)⟩],
          [new_roofline_sample (some ⟨0, 0⟩), new_roofline_sample (some ⟨0, 0⟩),
            new_roofline_sample (some ⟨0, 0⟩)], [0, 0], []⟩
        ⟨some [2], none⟩ (-((1 : Nat) : Int))
      = some (some 2,
          ⟨false, 1, [⟨0, 0⟩, ⟨1, 1⟩, ⟨2, 2⟩], [⟨⟨0, 0⟩, 3, (0, 3)⟩],
            [new_roofline_sample (some ⟨0, 0⟩), new_roofline_sample (some ⟨0, 0⟩),
              new_roofline_sample (some ⟨0, 0⟩)], [0, 2], []⟩) :=
  (binding_table_caches_resolution
    ⟨false, 1, [⟨0, 0⟩, ⟨1, 1⟩, ⟨2, 2⟩], [⟨⟨0, 0⟩, 3, (0, 3)⟩],
      [new_roofline_sample (some ⟨0, 0⟩), new_roofline_sample (some ⟨0, 0⟩),
        new_roofline_sample (some ⟨0, 0⟩)], [0, 0], []⟩
    ⟨some [2], none⟩ 1 2 ⟨2, 2⟩ (by decide) (by decide) (by decide) (by decide)).1

/-- C10, as stated, fails.  Thread 1 has been resolved to the PU 1
(`bindings[1] = 1`); a later start-side call, when the operating system
answers CPU 2, returns the sample at index 2 and overwrites `bindings[1]`.
And thread 0 has been resolved to the PU 1 (`bindings[0] = 1`); its stop-side
call `roofline_sampling_caller(0)` queries the operating system again, returns
the sample at index 2 and overwrites `bindings[0]`. -/
theorem binding_table_counterexample :
    roofline_sampling_caller
        ⟨false, 1, [⟨0, 0⟩, ⟨1, 1⟩, ⟨2, 2⟩], [⟨⟨0, 0⟩, 3, (0, 3)⟩],
          [new_roofline_sample (some ⟨0, 0⟩), new_roofline_sample (some ⟨0, 0⟩),
            new_roofline_sample (some ⟨0, 0⟩)], [0, 1], []⟩
        ⟨some [2], none⟩ (-1)
      = some (some 2,
          ⟨false, 1, [⟨0, 0⟩, ⟨1, 1⟩, ⟨2, 2⟩], [⟨⟨0, 0⟩, 3, (0, 3)⟩],
            [new_roofline_sample (some ⟨0, 0⟩), new_roofline_sample (some ⟨0, 0⟩),
              new_roofline_sample (some ⟨0, 0⟩)], [0, 2], []⟩)
    ∧ roofline_sampling_caller
        ⟨false, 1, [⟨0, 0⟩, ⟨1, 1⟩, ⟨2, 2⟩], [⟨⟨0, 0⟩, 3, (0, 3)⟩],
          [new_roofline_sample (some ⟨0, 0⟩), new_roofline_sample (some ⟨0, 0⟩),
            new_roofline_sample (some ⟨0, 0⟩)], [1, 0], []⟩
        ⟨some [2], none⟩ 0
      = some (some 2,
          ⟨false, 1, [⟨0, 0⟩, ⟨1, 1⟩, ⟨2, 2⟩], [⟨⟨0, 0⟩, 3, (0, 3)⟩],
            [new_roofline_sample (some ⟨0, 0⟩), new_roofline_sample (some ⟨0, 0⟩),
              new_roofline_sample (some ⟨0, 0⟩)], [2, 0], []⟩) := by
  decide


theorem to_u64_natCast (n : Nat) : to_u64 (n : Int) = n % 18446744073709551616 := by
  unfold to_u64
  omega

theorem getElem?_sample_finalize (st : sampler) (s : Nat) (now : Nat) (values : papi_values)
    (x : roofline_sample) (hp : st.papi = true) (hx : st.samples[s]? = some x)
    (hl : x.last_thread = 1) :
    (sample_finalize st s now values).samples[s]?
      = some { x with
          last_thread := 0
          e_nano := now
          flops := papi_flops st.FLOPS values
          bytes := papi_bytes st.FLOPS values } := by
  simp only [sample_finalize, getElem?_update_sample, if_true, hx, Option.map_some', hl, hp]
  rfl

/-- C4.  Counter-derived metrics.  In the build with the hardware counter
reader, the thread that finalizes a sample in
`roofline_sequential_sampling_stop` (it reads `last_thread = 1`) from the raw
counts `scalar_ops = values[0]`, `packed_ops = values[1]`, `store_uops =
values[2]`, `load_uops = values[3]` (non-negative `long long` values) and the
SIMD width `W = FLOPS` leaves, in 64-bit unsigned arithmetic with truncating
division, `flops = scalar_ops + W * packed_ops`; with `fused_uops = scalar_ops
+ packed_ops` and `mem_uops = store_uops + load_uops`, `bytes = (8 * mem_uops /
fused_uops) * (W * packed_ops + scalar_ops)` when `fused_uops > 0`, and `bytes
= 8 * mem_uops` when `fused_uops = 0`, exactly so when `8 * mem_uops` fits in
64 bits. -/
theorem counter_derived_metrics (st : sampler) (s now : Nat) (x : roofline_sample)
    (scalar_ops packed_ops store_uops load_uops : Nat)
    (hp : st.papi = true) (hx : st.samples[s]? = some x) (hl : x.last_thread = 1)
    (h0 : scalar_ops < 9223372036854775808) (h1 : packed_ops < 9223372036854775808)
    (h2 : store_uops < 9223372036854775808) (h3 : load_uops < 9223372036854775808) :
    ∃ y, (sample_finalize st s now
        ⟨(scalar_ops : Int), (packed_ops : Int), (store_uops : Int), (load_uops : Int)⟩).samples[s]?
        = some y
      ∧ y.flops = (scalar_ops + st.FLOPS * packed_ops) % 18446744073709551616
      ∧ (0 < scalar_ops + packed_ops →
          y.bytes = ((8 * (store_uops + load_uops)) % 18446744073709551616
              / (scalar_ops + packed_ops)
            * ((st.FLOPS * packed_ops + scalar_ops) % 18446744073709551616))
            % 18446744073709551616)
      ∧ (scalar_ops + packed_ops = 0 →
          y.bytes = (8 * (store_uops + load_uops)) % 18446744073709551616)
      ∧ (scalar_ops + packed_ops = 0 → 8 * (store_uops + load_uops) < 18446744073709551616 →
          y.bytes = 8 * (store_uops + load_uops)) := by
  refine ⟨_, getElem?_sample_finalize st s now _ x hp hx hl, ?_, ?_, ?_, ?_⟩
  · dsimp only
    unfold papi_flops
    dsimp only
    rw [show (scalar_ops : Int) + (st.FLOPS : Int) * (packed_ops : Int)
        = ((scalar_ops + st.FLOPS * packed_ops : Nat) : Int) by push_cast; rfl, to_u64_natCast]
  all_goals
    have hmu : to_u64 ((load_uops : Int) + (store_uops : Int)) = store_uops + load_uops := by
      unfold to_u64; omega
    have hfu : to_u64 ((scalar_ops : Int) + (packed_ops : Int)) = scalar_ops + packed_ops := by
      unfold to_u64; omega
    have hw : to_u64 ((st.FLOPS : Int) * (packed_ops : Int) + (scalar_ops : Int))
        = (st.FLOPS * packed_ops + scalar_ops) % 18446744073709551616 := by
      rw [show (st.FLOPS : Int) * (packed_ops : Int) + (scalar_ops : Int)
        = ((st.FLOPS * packed_ops + scalar_ops : Nat) : Int) by push_cast; rfl, to_u64_natCast]
  · intro hpos
    dsimp only
    unfold papi_bytes
    simp only [hmu, hfu, hw, gt_iff_lt, if_pos hpos, mul_u64]
  · intro hz
    dsimp only
    unfold papi_bytes
    simp only [hmu, hfu, hz, gt_iff_lt, lt_self_iff_false, if_false, mul_u64]
  · intro hz hfit
    dsimp only
    unfold papi_bytes
    simp only [hmu, hfu, hz, gt_iff_lt, lt_self_iff_false, if_false, mul_u64]
    exact Nat.mod_eq_of_lt hfit

/-- C4 at `scalar_ops = 10`, `packed_ops = 5`, `store_uops = 30`, `load_uops =
60` and `W = 4`: `flops = 30` and `bytes = (720 / 15) * 30 = 1440`. -/
theorem counter_derived_metrics_witness :
    ∃ y, (sample_finalize
        ⟨true, 4, [⟨0, 0⟩], [⟨⟨0, 0⟩, 1, (0, 1)⟩], [⟨1, 1000, 0, 0, 0, some ⟨0, 0⟩, 1⟩], [0], []⟩
        0 2000 ⟨10, 5, 30, 60⟩).samples[0]? = some y
      ∧ y.flops = 30 ∧ y.bytes = 1440 := by
  obtain ⟨y, h1, h2, h3, -, -⟩ := counter_derived_metrics
    ⟨true, 4, [⟨0, 0⟩], [⟨⟨0, 0⟩, 1, (0, 1)⟩], [⟨1, 1000, 0, 0, 0, some ⟨0, 0⟩, 1⟩], [0], []⟩
    0 2000 ⟨1, 1000, 0, 0, 0, some ⟨0, 0⟩, 1⟩ 10 5 30 60 rfl rfl rfl (by decide) (by decide)
    (by decide) (by decide)
  exact ⟨y, h1, h2, h3 (by decide)⟩

/-- C3, on the code.  One team of 4 threads, all bound to the PU 0 of a
machine with two cores of two PUs, reduction at the core level, build without
the hardware counter reader: `roofline_sampling_start` with `flops = 400` and
`bytes = 800` and then stop.  Each thread assigns its share to the sample, so
the leaf sample as read by the reduction step shows `n_threads = 4`, `flops =
100` and `bytes = 200`, and the record of the core that covers the leaf shows
the same values. -/
theorem four_threads_on_one_leaf :
    (((roofline_sampling_init false 1 2 two_cores 1 4).bind (fun st =>
        omp_roofline_sampling_start st
          [⟨0, ⟨some [0], none⟩, 1000, 2000, ⟨0, 0, 0, 0⟩⟩,
            ⟨1, ⟨some [0], none⟩, 1001, 2001, ⟨0, 0, 0, 0⟩⟩,
            ⟨2, ⟨some [0], none⟩, 1002, 2002, ⟨0, 0, 0, 0⟩⟩,
            ⟨3, ⟨some [0], none⟩, 1003, 2003, ⟨0, 0, 0, 0⟩⟩] 400 800)).bind (fun st =>
        omp_stop_finalize st
          [⟨0, ⟨some [0], none⟩, 1000, 2000, ⟨0, 0, 0, 0⟩⟩,
            ⟨1, ⟨some [0], none⟩, 1001, 2001, ⟨0, 0, 0, 0⟩⟩,
            ⟨2, ⟨some [0], none⟩, 1002, 2002, ⟨0, 0, 0, 0⟩⟩,
            ⟨3, ⟨some [0], none⟩, 1003, 2003, ⟨0, 0, 0, 0⟩⟩])).map
        (fun st => st.samples[0]?)
      = some (some ⟨0, 1000, 2003, 100, 200, some ⟨1, 0⟩, 4⟩)
    ∧ (((roofline_sampling_init false 1 2 two_cores 1 4).bind (fun st =>
        omp_roofline_sampling_start st
          [⟨0, ⟨some [0], none⟩, 1000, 2000, ⟨0, 0, 0, 0⟩⟩,
            ⟨1, ⟨some [0], none⟩, 1001, 2001, ⟨0, 0, 0, 0⟩⟩,
            ⟨2, ⟨some [0], none⟩, 1002, 2002, ⟨0, 0, 0, 0⟩⟩,
            ⟨3, ⟨some [0], none⟩, 1003, 2003, ⟨0, 0, 0, 0⟩⟩] 400 800)).bind (fun st =>
        omp_roofline_sampling_stop st
          [⟨0, ⟨some [0], none⟩, 1000, 2000, ⟨0, 0, 0, 0⟩⟩,
            ⟨1, ⟨some [0], none⟩, 1001, 2001, ⟨0, 0, 0, 0⟩⟩,
            ⟨2, ⟨some [0], none⟩, 1002, 2002, ⟨0, 0, 0, 0⟩⟩,
            ⟨3, ⟨some [0], none⟩, 1003, 2003, ⟨0, 0, 0, 0⟩⟩] "")).map
        (fun st => st.output)
      = some [⟨some ⟨1, 0⟩, 1003, 200, 100, 4, ""⟩, ⟨some ⟨1, 1⟩, 0, 0, 0, 0, ""⟩] := by
  decide

/-! # The sub-lists of the nodes at the reduction depth -/


theorem pus_below_succ (h : Nat) (children : List (hwloc_obj h)) :
    pus_below (h + 1) children = List.flatMap children (pus_below h) := rfl

theorem objs_at_depth_zero (h : Nat) (o : hwloc_obj h) :
    objs_at_depth h o 0 = [⟨h, o⟩] := by
  cases h <;> rfl

theorem objs_at_depth_succ (h d : Nat) (children : List (hwloc_obj h)) :
    objs_at_depth (h + 1) children (d + 1)
      = List.flatMap children (fun c => objs_at_depth h c d) := rfl

/-- The PUs of the topology are the PUs below the objects of a depth, in
order. -/
theorem pus_below_eq_flatMap (d : Nat) : ∀ (H : Nat) (root : hwloc_obj H), d ≤ H →
    pus_below H root
      = List.flatMap (objs_at_depth H root d) (fun o => pus_below o.1 o.2) := by
  induction d with
  | zero =>
    intro H root _
    rw [objs_at_depth_zero]
    simp
  | succ d ih =>
    intro H root hd
    cases H with
    | zero => omega
    | succ h =>
      have hc : ∀ c : hwloc_obj h, pus_below h c
          = List.flatMap (objs_at_depth h c d) (fun o => pus_below o.1 o.2) :=
        fun c => ih h c (by omega)
      rw [pus_below_succ, objs_at_depth_succ, List.flatMap_assoc]
      congr 1
      funext c
      exact hc c

/-- The objects of depth `d` stand `H - d` levels above the PUs. -/
theorem height_of_objs_at_depth (d : Nat) : ∀ (H : Nat) (root : hwloc_obj H),
    ∀ o ∈ objs_at_depth H root d, o.1 + d = H := by
  induction d with
  | zero =>
    intro H root o ho
    rw [objs_at_depth_zero] at ho
    rw [List.mem_singleton.mp ho]
    rfl
  | succ d ih =>
    intro H root o ho
    cases H with
    | zero => cases ho
    | succ h =>
      rw [objs_at_depth_succ] at ho
      obtain ⟨c, -, hc⟩ := List.mem_flatMap.mp ho
      have := ih h c o hc
      omega

theorem pus_below_of_arity_zero (h : Nat) (o : hwloc_obj (h + 1)) (ha : arity (h + 1) o = 0) :
    pus_below (h + 1) o = [] := by
  have hl : (o : List (hwloc_obj h)) = [] := List.length_eq_zero.mp ha
  rw [pus_below_succ, hl]
  rfl

/-- When the descent to the first child ends at a PU, that PU is the first one
below the object. -/
theorem head_of_first_PU : ∀ (h : Nat) (o : hwloc_obj h) (p : hwloc_pu),
    first_PU h o = some p → (pus_below h o).head? = some p := by
  intro h
  induction h with
  | zero =>
    intro o p hp
    have : o = p := Option.some.inj hp
    rw [this]
    rfl
  | succ h ih =>
    intro o p hp
    match o, hp with
    | [], hp => cases hp
    | c :: cs, hp =>
      have hc : first_PU h c = some p := hp
      show (List.flatMap (c :: cs) (pus_below h)).head? = some p
      rw [List.flatMap_cons, List.head?_append, ih c p hc]
      rfl

theorem range'_add (s a b : Nat) :
    List.range' s (a + b) = List.range' s a ++ List.range' (s + a) b := by
  rw [List.range'_append_1, Nat.add_comm]

/-- In a list numbered `0, 1, ...`, a segment that starts at position `a` is
numbered `a, a + 1, ...`. -/
theorem segment_indices (pre mid post : List hwloc_pu) (n : Nat)
    (h : (pre ++ mid ++ post).map (fun pu => pu.logical_index) = List.range n) :
    mid.map (fun pu => pu.logical_index) = List.range' pre.length mid.length := by
  have hn : n = pre.length + mid.length + post.length := by
    have := congrArg List.length h
    simp only [List.length_map, List.length_append, List.length_range] at this
    omega
  have hr : List.range n
      = List.range' 0 pre.length ++ List.range' pre.length mid.length
        ++ List.range' (pre.length + mid.length) post.length := by
    rw [List.range_eq_range', hn, range'_add 0 (pre.length + mid.length) post.length,
      range'_add 0 pre.length mid.length]
    simp only [Nat.zero_add]
  rw [hr, List.map_append, List.map_append] at h
  have h1 := (List.append_inj h (by simp)).1
  exact (List.append_inj h1 (by simp)).2

/-- With distinct OS indexes, the PUs whose OS index is in the cpuset of a
segment are the PUs of the segment. -/
theorem count_inside_segment (pre mid post : List hwloc_pu)
    (h : ((pre ++ mid ++ post).map (fun pu => pu.os_index)).Nodup) :
    hwloc_get_nbobjs_inside_cpuset_by_type (pre ++ mid ++ post)
        (mid.map (fun pu => pu.os_index)) = mid.length := by
  unfold hwloc_get_nbobjs_inside_cpuset_by_type
  rw [List.map_append, List.map_append] at h
  have h1 := List.nodup_append.mp h
  have h2 := List.nodup_append.mp h1.1
  rw [List.countP_append, List.countP_append]
  have hpre : List.countP (fun pu => decide (pu.os_index ∈ mid.map (fun pu => pu.os_index))) pre
      = 0 := by
    rw [List.countP_eq_zero]
    intro p hp
    simp only [decide_eq_true_eq]
    intro hm
    exact h2.2.2 (List.mem_map_of_mem _ hp) hm
  have hmid : List.countP (fun pu => decide (pu.os_index ∈ mid.map (fun pu => pu.os_index))) mid
      = mid.length := by
    rw [List.countP_eq_length]
    intro p hp
    simp only [decide_eq_true_eq]
    exact List.mem_map_of_mem _ hp
  have hpost : List.countP (fun pu => decide (pu.os_index ∈ mid.map (fun pu => pu.os_index))) post
      = 0 := by
    rw [List.countP_eq_zero]
    intro p hp
    simp only [decide_eq_true_eq]
    intro hm
    exact h1.2.2 (List.mem_append_right _ hm) (List.mem_map_of_mem _ hp)
  rw [hpre, hmid, hpost]
  omega


/-- The ranges that `init_nodes` stores for a run of objects cover, in order
and without overlap, the indexes of the PUs below these objects. -/
theorem init_nodes_ranges (all : List hwloc_pu) (n d : Nat)
    (hidx : all.map (fun pu => pu.logical_index) = List.range n)
    (hnd : (all.map (fun pu => pu.os_index)).Nodup) :
    ∀ (objs : List (Σ k, hwloc_obj k)) (j : Nat) (pre : List hwloc_pu),
      all = pre ++ List.flatMap objs (fun o => pus_below o.1 o.2) →
      (∀ o ∈ objs, (arity o.1 o.2 ≠ 0 → first_PU o.1 o.2 ≠ none)
        ∧ (arity o.1 o.2 = 0 → pus_below o.1 o.2 = [])) →
      ∃ nodes, init_nodes all d j objs = some nodes
        ∧ List.flatMap
            ((nodes.filter (fun n => decide (n.arity ≠ 0))).map (fun n => n.userdata))
            (fun r => List.range' r.1 r.2)
          = List.range' pre.length (n - pre.length) := by
  have hlen : all.length = n := by
    have := congrArg List.length hidx
    simpa using this
  intro objs
  induction objs with
  | nil =>
    intro j pre hall _
    refine ⟨[], rfl, ?_⟩
    have : pre.length = n := by
      rw [← hlen, hall]
      simp
    simp [this]
  | cons o rest ih =>
    intro j pre hall hobj
    have ho := hobj o (List.mem_cons_self _ _)
    have hrest : ∀ o ∈ rest, (arity o.1 o.2 ≠ 0 → first_PU o.1 o.2 ≠ none)
        ∧ (arity o.1 o.2 = 0 → pus_below o.1 o.2 = []) :=
      fun x hx => hobj x (List.mem_cons_of_mem _ hx)
    rw [List.flatMap_cons] at hall
    by_cases ha : arity o.1 o.2 = 0
    · rw [ho.2 ha, List.nil_append] at hall
      obtain ⟨nodes, hn1, hn2⟩ := ih (j + 1) pre hall hrest
      refine ⟨{ obj := ⟨d, j⟩, arity := 0, userdata := (0, 0) } :: nodes, ?_, ?_⟩
      · simp only [init_nodes, if_pos ha, hn1, Option.map_some']
      · rw [List.filter_cons_of_neg (by simp)]
        exact hn2
    · obtain ⟨p, hp1⟩ := Option.ne_none_iff_exists'.mp (ho.1 ha)
      have hp2 := head_of_first_PU o.1 o.2 p hp1
      have hall2 : all = (pre ++ pus_below o.1 o.2)
          ++ List.flatMap rest (fun o => pus_below o.1 o.2) := by
        rw [hall, List.append_assoc]
      obtain ⟨nodes, hn1, hn2⟩ := ih (j + 1) (pre ++ pus_below o.1 o.2) hall2 hrest
      have hseg := segment_indices pre (pus_below o.1 o.2)
        (List.flatMap rest (fun o => pus_below o.1 o.2)) n (by rw [← hall2]; exact hidx)
      have hcount := count_inside_segment pre (pus_below o.1 o.2)
        (List.flatMap rest (fun o => pus_below o.1 o.2)) (by rw [← hall2]; exact hnd)
      rw [← hall2] at hcount
      have hfirst : p.logical_index = pre.length := by
        cases hm : pus_below o.1 o.2 with
        | nil => rw [hm] at hp2; cases hp2
        | cons q qs =>
          rw [hm] at hp2 hseg
          simp only [List.head?_cons, Option.some.injEq] at hp2
          subst hp2
          simp only [List.map_cons, List.length_cons, List.range'_succ, List.cons.injEq] at hseg
          exact hseg.1
      have hle : pre.length + (pus_below o.1 o.2).length ≤ n := by
        rw [← hlen, hall2]
        simp only [List.length_append]
        omega
      refine ⟨(⟨⟨d, j⟩, arity o.1 o.2, (p.logical_index,
        hwloc_get_nbobjs_inside_cpuset_by_type all (cpuset o.1 o.2))⟩ : reduction_node)
          :: nodes, ?_, ?_⟩
      · simp only [init_nodes, if_neg ha, hp1, hn1, Option.map_some']
      · rw [List.filter_cons_of_pos (by simpa using ha), List.map_cons, List.flatMap_cons, hn2]
        simp only
        unfold cpuset
        rw [hcount, hfirst, List.length_append,
          show n - pre.length
            = (pus_below o.1 o.2).length + (n - (pre.length + (pus_below o.1 o.2).length)) by
              omega,
          range'_add]

theorem count_range' (i s c : Nat) :
    List.count i (List.range' s c) = if s ≤ i ∧ i < s + c then 1 else 0 := by
  split_ifs with h
  · exact List.count_eq_one_of_mem (List.nodup_range' s c) (List.mem_range'_1.mpr h)
  · exact List.count_eq_zero.mpr (fun hm => h (List.mem_range'_1.mp hm))

theorem count_flatMap_range' (i : Nat) (rs : List (Nat × Nat)) :
    List.count i (List.flatMap rs (fun r => List.range' r.1 r.2))
      = (rs.filter (fun r => decide (r.1 ≤ i ∧ i < r.1 + r.2))).length := by
  induction rs with
  | nil => rfl
  | cons r rs ih =>
    rw [List.flatMap_cons, List.count_append, ih, count_range', List.filter_cons]
    split_ifs with h1 h2 h2
    · simp; omega
    · exact absurd (by simpa using h1) h2
    · exact absurd (by simpa using h2) h1
    · simp


/-- When `init_nodes` has a result, the descent to the first child has ended at
a PU for every object with children. -/
theorem first_PU_of_init_nodes (all : List hwloc_pu) (d : Nat) :
    ∀ (objs : List (Σ k, hwloc_obj k)) (j : Nat) (nodes : List reduction_node),
      init_nodes all d j objs = some nodes →
      ∀ o ∈ objs, arity o.1 o.2 ≠ 0 → first_PU o.1 o.2 ≠ none := by
  intro objs
  induction objs with
  | nil =>
    intro j nodes _ o ho
    cases ho
  | cons x rest ih =>
    intro j nodes hn o ho ha
    unfold init_nodes at hn
    by_cases hx : arity x.1 x.2 = 0
    · rw [if_pos hx] at hn
      rcases List.mem_cons.mp ho with rfl | hmem
      · exact absurd hx ha
      · cases hr : init_nodes all d (j + 1) rest with
        | none => rw [hr] at hn; cases hn
        | some ns => exact ih (j + 1) ns hr o hmem ha
    · rw [if_neg hx] at hn
      cases hf : first_PU x.1 x.2 with
      | none => rw [hf] at hn; cases hn
      | some first =>
        rw [hf] at hn
        rcases List.mem_cons.mp ho with rfl | hmem
        · rw [hf]
          exact Option.some_ne_none first
        · cases hr : init_nodes all d (j + 1) rest with
          | none => rw [hr] at hn; cases hn
          | some ns => exact ih (j + 1) ns hr o hmem ha

/-- The function `roofline_sampling_init` returns only when, from every node at
the reduction depth that has children, the descent to the first child ends at a
PU. -/
theorem first_PU_of_init (papi : Bool) (FLOPS H : Nat) (root : hwloc_obj H)
    (reduction_depth max_threads : Nat) (st : sampler)
    (h : roofline_sampling_init papi FLOPS H root reduction_depth max_threads = some st) :
    ∀ o ∈ objs_at_depth H root reduction_depth,
      arity o.1 o.2 ≠ 0 → first_PU o.1 o.2 ≠ none := by
  unfold roofline_sampling_init at h
  cases hn : init_nodes (pus_below H root) reduction_depth 0
      (objs_at_depth H root reduction_depth) with
  | none => rw [hn] at h; cases h
  | some nodes => exact first_PU_of_init_nodes _ _ _ 0 nodes hn

/-- C8 (amended).  Partition property.  For every topology tree whose PUs carry
the logical indexes `0 .. n-1` in hierarchy order (and distinct OS indexes),
and for every reduction depth above the PU level, when from every node of that
depth with arity `> 0` the descent `first_PU = first_PU->first_child` ends at a
PU, `roofline_sampling_init` returns, creates `n` samples, and the sub-ranges
`[first_PU.logical_index, first_PU.logical_index + n_PU)` it stores in the
nodes of arity `> 0` are, put one after the other, exactly `0, 1, .., n-1`:
every leaf index below `n` lies in exactly one sub-range and no other index
lies in any. -/
theorem sub_ranges_partition (papi : Bool) (FLOPS H : Nat) (root : hwloc_obj H)
    (reduction_depth max_threads n : Nat) (hd : reduction_depth < H)
    (hidx : (pus_below H root).map (fun pu => pu.logical_index) = List.range n)
    (hos : ((pus_below H root).map (fun pu => pu.os_index)).Nodup)
    (hfirst : ∀ o ∈ objs_at_depth H root reduction_depth,
      arity o.1 o.2 ≠ 0 → first_PU o.1 o.2 ≠ none) :
    ∃ st, roofline_sampling_init papi FLOPS H root reduction_depth max_threads = some st
      ∧ st.samples.length = n
      ∧ List.flatMap (sub_ranges st) (fun r => List.range' r.1 r.2) = List.range n
      ∧ ∀ i, ((sub_ranges st).filter (fun r => decide (r.1 ≤ i ∧ i < r.1 + r.2))).length
          = if i < n then 1 else 0 := by
  have hobj : ∀ o ∈ objs_at_depth H root reduction_depth,
      (arity o.1 o.2 ≠ 0 → first_PU o.1 o.2 ≠ none)
        ∧ (arity o.1 o.2 = 0 → pus_below o.1 o.2 = []) := by
    intro o ho
    refine ⟨hfirst o ho, ?_⟩
    have hh := height_of_objs_at_depth reduction_depth H root o ho
    obtain ⟨k, c⟩ := o
    cases k with
    | zero => simp only at hh; omega
    | succ k => exact pus_below_of_arity_zero k c
  obtain ⟨nodes, hn1, hn2⟩ := init_nodes_ranges (pus_below H root) n reduction_depth hidx hos
    (objs_at_depth H root reduction_depth) 0 []
    (by rw [List.nil_append]; exact pus_below_eq_flatMap reduction_depth H root (le_of_lt hd))
    hobj
  have hlen : (pus_below H root).length = n := by
    have := congrArg List.length hidx
    simpa using this
  have hflat : List.flatMap
      ((nodes.filter (fun n => decide (n.arity ≠ 0))).map (fun n => n.userdata))
      (fun r => List.range' r.1 r.2) = List.range n := by
    rw [hn2, List.range_eq_range']
    rfl
  have hinit : roofline_sampling_init papi FLOPS H root reduction_depth max_threads
      = some ⟨papi, FLOPS, pus_below H root, nodes,
          (List.range (pus_below H root).length).map (fun i =>
            new_roofline_sample
              (ancestors reduction_depth 0 (objs_at_depth H root reduction_depth))[i]?),
          List.replicate max_threads 0, []⟩ := by
    simp only [roofline_sampling_init, hn1]
  refine ⟨_, hinit, ?_, hflat, ?_⟩
  · simp [hlen]
  · intro i
    have hc := count_flatMap_range' i
      ((nodes.filter (fun n => decide (n.arity ≠ 0))).map (fun n => n.userdata))
    rw [hflat] at hc
    show ((List.map (fun n => n.userdata)
      (nodes.filter (fun n => decide (n.arity ≠ 0)))).filter
        (fun r => decide (r.1 ≤ i ∧ i < r.1 + r.2))).length = _
    rw [← hc]
    split_ifs with h
    · exact List.count_eq_one_of_mem (List.nodup_range n) (List.mem_range.mpr h)
    · exact List.count_eq_zero.mpr (fun hm => h (List.mem_range.mp hm))

/-- C8 at a machine with a childless package and a package of one core of two
PUs, reduced at the machine level: the only sub-range is `[0, 2)`. -/
theorem sub_ranges_partition_witness :
    (∀ o ∈ objs_at_depth 3 childless_package 0,
      arity o.1 o.2 ≠ 0 → first_PU o.1 o.2 ≠ none)
    ∧ ∃ st, roofline_sampling_init false 1 3 childless_package 0 2 = some st
      ∧ st.samples.length = 2
      ∧ List.flatMap (sub_ranges st) (fun r => List.range' r.1 r.2) = List.range 2
      ∧ ∀ i, ((sub_ranges st).filter (fun r => decide (r.1 ≤ i ∧ i < r.1 + r.2))).length
          = if i < 2 then 1 else 0 :=
  ⟨by decide,
    sub_ranges_partition false 1 3 childless_package 0 2 2 (by decide) (by decide) (by decide)
      (by decide)⟩

/-- C8, as stated, fails.  A machine with two packages, the first with one
childless core and the second with one core of one PU, reduced at the package
level: the PU carries the logical index `0`, and at the first package, of arity
`1`, the descent `first_PU = first_PU->first_child` reaches the childless core
and then a null `first_child`, so `roofline_sampling_init` does not return and
creates no sub-range. -/
theorem sub_ranges_counterexample :
    (pus_below 3 childless_core).map (fun pu => pu.logical_index) = List.range 1
    ∧ ((pus_below 3 childless_core).map (fun pu => pu.os_index)).Nodup
    ∧ (objs_at_depth 3 childless_core 1).map (fun o => arity o.1 o.2) = [1, 1]
    ∧ roofline_sampling_init false 1 3 childless_core 1 1 = none := by
  decide

end Sampling
